import Mathlib

/-!
# Adaptive caching system (`resource.cpp`)

A shallow embedding of `AdaptiveCachingSystem` and of the properties of its
admission pass.

Conventions of the embedding

* `size_t` values are natural numbers; every `size_t` addition of the source is
  followed by an explicit reduction modulo `2 ^ 64`.
* Standard output is a list of lines, appended to in program order.
* `std::sort` is a parameter: any function that returns a permutation of its
  input in which no element is smaller (for the comparator of the source,
  `a.size < b.size`) than an element before it.  The standard promises nothing
  about the relative order of elements that compare equal.  Where that order
  matters, the sort is `libstdcxxSort`, the algorithm of GNU libstdc++
  (`bits/stl_algo.h`): an introsort loop down to ranges of 16 elements, then an
  insertion sort.  Its heap sort, which runs only when the depth limit
  `2 * lg n` is used up, is an argument of the model.
* A function of the source returns to its caller, except in the definitions whose
  name ends in `Throwing`: there the load step may be left by an exception, which
  then leaves `cacheResource` and `updateCache` as well, since the source has no
  `try` and no `catch`.
* Each call of `isFrequentlyUsed` builds a fresh `std::random_device` and
  generator; the value `distrib(gen)` would yield in the `k`-th call of a pass
  is `draws k`.
* The stubs of the source (`getCurrentMemoryUsage`, `getMaxMemoryLimit`, the
  catalog literal of `getResourcesToCache`, `loadResource`) are arguments of the
  functions that use them; the values the source gives them are defined below
  under their own names.
-/

namespace AdaptiveCachingSystem

/-- Number of values of a `size_t` on a 64-bit target. -/
def SIZE_MOD : Nat := 2 ^ 64

/-- The resource record of the source: a name and a size in bytes (`size_t`). -/
structure Resource where
  name : String
  size : Nat
deriving DecidableEq, Repr

/-- Lines written to `std::cout`, oldest first. -/
abbrev Output := List String

/-- Substring search on character lists: does `pat` occur in `s` at some offset. -/
def occursIn (pat : List Char) : List Char → Bool
  | [] => pat.isEmpty
  | c :: cs => pat.isPrefixOf (c :: cs) || occursIn pat cs

/-- The test `name.find(pat) != std::string::npos`. -/
def nameContains (name pat : String) : Bool :=
  occursIn pat.toList name.toList

/-- The predictor `isFrequentlyUsed`; `draw` is the value of `distrib(gen)`, which
only the audio branch evaluates. -/
def isFrequentlyUsed (resource : Resource) (draw : Nat) : Bool :=
  if nameContains resource.name "Texture" then true
  else if nameContains resource.name "Audio" then decide (draw ≤ 7)
  else false

/-- The values `std::uniform_int_distribution<>(1, 10)` can yield. -/
def drawRange : List Nat := [1, 2, 3, 4, 5, 6, 7, 8, 9, 10]

/-- The contract of `std::sort` with the comparator `a.size < b.size`. -/
structure StdSort where
  sort : List Resource → List Resource
  perm : ∀ l, (sort l).Perm l
  sorted : ∀ l, (sort l).Pairwise (fun a b => ¬ b.size < a.size)

/-- The filtering loop of `getResourcesToCache`: `i` is the number of calls of
`isFrequentlyUsed` made so far, `acc` is `frequentlyUsedResources`. -/
def filterLoop (draws : Nat → Nat) : Nat → List Resource → List Resource → List Resource
  | _, [], acc => acc
  | i, resource :: rest, acc =>
    if isFrequentlyUsed resource (draws i) then
      filterLoop draws (i + 1) rest (acc ++ [resource])
    else
      filterLoop draws (i + 1) rest acc

/-- The function `getResourcesToCache` over an arbitrary catalog: sort by size, then
keep the resources the predictor accepts. -/
def getResourcesToCache (S : StdSort) (draws : Nat → Nat) (catalog : List Resource) :
    List Resource :=
  filterLoop draws 0 (S.sort catalog) []

/-- The catalog literal of `getResourcesToCache`. -/
def builtinCatalog : List Resource :=
  [⟨"Texture1", 1024 * 1024⟩, ⟨"Texture2", 2048 * 1024⟩,
   ⟨"Audio1", 512 * 1024⟩, ⟨"Audio2", 1024 * 1024⟩]

/-- The stub `getCurrentMemoryUsage`: 10 MB. -/
def getCurrentMemoryUsage : Nat := 10 * 1024 * 1024

/-- The function `checkCurrentMemoryUsage`, which forwards to the stub. -/
def checkCurrentMemoryUsage : Nat := getCurrentMemoryUsage

/-- The stub `getMaxMemoryLimit`: 100 MB. -/
def getMaxMemoryLimit : Nat := 100 * 1024 * 1024

/-- The test `canCacheResource`; the addition is a `size_t` addition. -/
def canCacheResource (maxLimit currentMemoryUsage : Nat) (resource : Resource) : Bool :=
  decide ((currentMemoryUsage + resource.size) % SIZE_MOD ≤ maxLimit)

/-- Modelled from the spec: the outcome of the load collaborator
(`ResourceLoader.load(Resource) -> ok | LoadFailure`).  The source declares
`loadResource` with return type `void`, so no caller can read an outcome. -/
inductive LoadResult where
  | ok
  | LoadFailure
deriving DecidableEq, Repr

/-- A load step that returns to its caller: what it has written, and the outcome label
of the specification, which no caller reads.  For a load step that an exception
leaves, see `ThrowingLoader`. -/
abbrev Loader := Resource → Output → Output × LoadResult

/-- The stub `loadResource` of the source: one line of output, and it cannot fail. -/
def loadResource : Loader :=
  fun resource out => (out ++ ["Resource loaded: " ++ resource.name], LoadResult.ok)

/-- The function `loadResourceToMemory`: the result of the `void` call is dropped. -/
def loadResourceToMemory (L : Loader) (resource : Resource) (out : Output) : Output :=
  (L resource (out ++ ["Loading resource: " ++ resource.name])).1

/-- The stub `addToCacheTable`. -/
def addToCacheTable (resource : Resource) (out : Output) : Output :=
  out ++ ["Resource added to cache: " ++ resource.name]

/-- The function `updateCacheTable`. -/
def updateCacheTable (resource : Resource) (out : Output) : Output :=
  addToCacheTable resource (out ++ ["Updating cache table for: " ++ resource.name])

/-- The function `cacheResource`: load, then register, unconditionally. -/
def cacheResource (L : Loader) (resource : Resource) (out : Output) : Output :=
  updateCacheTable resource (loadResourceToMemory L resource out)

/-- State of one pass of `updateCache`.  `committed` and `usageLog` are ghost
fields: the arguments of the calls of `cacheResource` in call order, and the value
of `currentMemoryUsage` right after each `currentMemoryUsage += resource.size`. -/
structure PassState where
  currentMemoryUsage : Nat
  committed : List Resource
  usageLog : List Nat
  out : Output
deriving DecidableEq, Repr

/-- The range-for loop of `updateCache`, with its `break`. -/
def updateCacheLoop (L : Loader) (maxLimit : Nat) : List Resource → PassState → PassState
  | [], st => st
  | resource :: rest, st =>
    if canCacheResource maxLimit st.currentMemoryUsage resource then
      updateCacheLoop L maxLimit rest
        { currentMemoryUsage := (st.currentMemoryUsage + resource.size) % SIZE_MOD
          committed := st.committed ++ [resource]
          usageLog := st.usageLog ++ [(st.currentMemoryUsage + resource.size) % SIZE_MOD]
          out := cacheResource L resource st.out }
    else st

/-- The function `updateCache`, given what `checkCurrentMemoryUsage`,
`getMaxMemoryLimit` and `getResourcesToCache` return. -/
def updateCache (L : Loader) (baseline maxLimit : Nat) (resources : List Resource) :
    PassState :=
  updateCacheLoop L maxLimit resources
    { currentMemoryUsage := baseline, committed := [], usageLog := [], out := [] }

/-- One whole pass over a catalog: `updateCache` on the list `getResourcesToCache`
returns. -/
def runPass (S : StdSort) (L : Loader) (draws : Nat → Nat) (baseline maxLimit : Nat)
    (catalog : List Resource) : PassState :=
  updateCache L baseline maxLimit (getResourcesToCache S draws catalog)

/-- Sum of the sizes of a list of resources, as a natural number (no wrap-around). -/
def totalSize (l : List Resource) : Nat :=
  (l.map Resource.size).sum

/-- Insertion sort by size; it keeps resources of equal size in input order. -/
def insertionSortBySize (l : List Resource) : List Resource :=
  l.insertionSort (fun a b => a.size ≤ b.size)

/-- The resources the loop of `updateCache` commits when it starts at usage `cur`
(the ghost field `committed`, computed without the rest of the state). -/
def admitted (maxLimit : Nat) : Nat → List Resource → List Resource
  | _, [] => []
  | cur, resource :: rest =>
    if canCacheResource maxLimit cur resource then
      resource :: admitted maxLimit ((cur + resource.size) % SIZE_MOD) rest
    else []

/-- What the filtering loop appends to its accumulator, from call number `i` on. -/
def kept (draws : Nat → Nat) : Nat → List Resource → List Resource
  | _, [] => []
  | i, resource :: rest =>
    if isFrequentlyUsed resource (draws i) then resource :: kept draws (i + 1) rest
    else kept draws (i + 1) rest

/-- Follows the words of the specification (4.4, step 3): walk the sequence with a
running projected usage, in exact arithmetic; admit a candidate when the projected
usage plus its size is within the budget, stop at the first that is not. -/
def specAdmitted (maxBudget : Nat) : Nat → List Resource → List Resource
  | _, [] => []
  | projectedUsage, resource :: rest =>
    if projectedUsage + resource.size ≤ maxBudget then
      resource :: specAdmitted maxBudget (projectedUsage + resource.size) rest
    else []

/-- Resources of equal size stand in `result` in the relative order they have in
`catalog`: for every size, those of that size in `result` are a subsequence of those
of that size in `catalog`. -/
def tiesInCatalogOrder (catalog result : List Resource) : Prop :=
  ∀ s : Nat, (result.filter (fun r => decide (r.size = s))).Sublist
    (catalog.filter (fun r => decide (r.size = s)))

instance sizeLe_total : IsTotal Resource (fun a b => a.size ≤ b.size) :=
  ⟨fun a b => Nat.le_total a.size b.size⟩

instance sizeLe_trans : IsTrans Resource (fun a b => a.size ≤ b.size) :=
  ⟨fun _ _ _ h1 h2 => Nat.le_trans h1 h2⟩

/-- A `std::sort` that is an insertion sort, as common implementations are on short
ranges; it meets the contract and happens to be stable. -/
def stableSort : StdSort where
  sort := insertionSortBySize
  perm := fun l => List.perm_insertionSort _ l
  sorted := fun l =>
    (List.sorted_insertionSort (fun a b : Resource => a.size ≤ b.size) l).imp
      (fun h => Nat.not_lt.mpr h)

/-- Follows the words of the specification (4.4, steps 1 and 2): filter the catalog by
the predictor first, then sort the filtered set ascending by size with ties in catalog
order.  A stable sort has one result only; insertion sort computes it. -/
def specPlan (pred : Resource → Bool) (catalog : List Resource) : List Resource :=
  insertionSortBySize (catalog.filter pred)

/-- A walk that differs from the loop of `updateCache` in one point: a candidate that
does not pass `canCacheResource` is skipped and the walk goes on with the later
ones.  Not part of the source; the source walk is compared with it. -/
def skippingWalk (maxLimit : Nat) : Nat → List Resource → List Resource
  | _, [] => []
  | cur, resource :: rest =>
    if canCacheResource maxLimit cur resource then
      resource :: skippingWalk maxLimit ((cur + resource.size) % SIZE_MOD) rest
    else skippingWalk maxLimit cur rest

/-- The comparator lambda passed to `std::sort`: `a.size < b.size`. -/
def sizeLess (a b : Resource) : Bool :=
  decide (a.size < b.size)

/-- The comparator applied to the elements at two positions of the range. -/
def lessAt (l : List Resource) (i j : Nat) : Bool :=
  match l[i]?, l[j]? with
  | some a, some b => sizeLess a b
  | _, _ => false

/-- The function `std::iter_swap` on two positions of the range. -/
def iterSwap (l : List Resource) (i j : Nat) : List Resource :=
  match l[i]?, l[j]? with
  | some x, some y => (l.set i y).set j x
  | _, _ => l

/-- The function `std::__move_median_to_first`. -/
def moveMedianToFirst (l : List Resource) (result a b c : Nat) : List Resource :=
  if lessAt l a b then
    if lessAt l b c then iterSwap l result b
    else if lessAt l a c then iterSwap l result c
    else iterSwap l result a
  else if lessAt l a c then iterSwap l result a
  else if lessAt l b c then iterSwap l result c
  else iterSwap l result b

/-- The loop `while (comp(first, pivot)) ++first;` over the elements from `first` on. -/
def advanceFirst (pivot : Resource) : List Resource → Nat → Nat
  | [], first => first
  | x :: rest, first => if sizeLess x pivot then advanceFirst pivot rest (first + 1) else first

/-- The loop `while (comp(pivot, last)) --last;` over the elements from `last` down. -/
def retreatLast (pivot : Resource) : List Resource → Nat → Nat
  | [], last => last
  | x :: rest, last => if sizeLess pivot x then retreatLast pivot rest (last - 1) else last

/-- The function `std::__unguarded_partition`; one unit of fuel per turn of its outer
loop, `none` when the fuel runs out. -/
def unguardedPartition : Nat → List Resource → Nat → Nat → Nat → Option (List Resource × Nat)
  | 0, _, _, _, _ => none
  | fuel + 1, l, first, last, pivot =>
    match l[pivot]? with
    | none => some (l, first)
    | some p =>
      let first1 := advanceFirst p (l.drop first) first
      let last1 := retreatLast p ((l.take last).reverse) (last - 1)
      if first1 < last1 then
        unguardedPartition fuel (iterSwap l first1 last1) (first1 + 1) last1 pivot
      else some (l, first1)

/-- The function `std::__unguarded_partition_pivot`. -/
def unguardedPartitionPivot (l : List Resource) (first last : Nat) : List Resource × Nat :=
  (unguardedPartition (last - first) (moveMedianToFirst l first (first + 1)
      (first + (last - first) / 2) (last - 1)) (first + 1) last first).getD (l, first)

/-- The function `std::__introsort_loop`; `H` stands for the heap sort of
`std::__partial_sort`, applied to the range when the depth limit is used up. -/
def introsortLoop (H : StdSort) : Nat → List Resource → Nat → Nat → List Resource
  | 0, l, first, last =>
    if 16 < last - first then
      l.take first ++ H.sort ((l.drop first).take (last - first))
        ++ (l.drop first).drop (last - first)
    else l
  | depthLimit + 1, l, first, last =>
    if 16 < last - first then
      introsortLoop H depthLimit
        (introsortLoop H depthLimit (unguardedPartitionPivot l first last).1
          (unguardedPartitionPivot l first last).2 last)
        first (unguardedPartitionPivot l first last).2
    else l

/-- The function `std::__unguarded_linear_insert`; the argument list holds the
elements before the hole, nearest first, and so does the result. -/
def unguardedLinearInsert (val : Resource) : List Resource → List Resource
  | [] => [val]
  | next :: before =>
    if sizeLess val next then next :: unguardedLinearInsert val before
    else val :: next :: before

/-- One turn of the loop of `std::__insertion_sort`: the sorted part is held nearest
first, so its last element is `*first`. -/
def insertionStep (sortedRev : List Resource) (val : Resource) : List Resource :=
  match sortedRev.getLast? with
  | some firstElem =>
    if sizeLess val firstElem then sortedRev ++ [val]
    else unguardedLinearInsert val sortedRev
  | none => [val]

/-- The function `std::__insertion_sort`, result nearest-last-first. -/
def insertionSortRev : List Resource → List Resource
  | [] => []
  | x :: rest => rest.foldl insertionStep [x]

/-- The function `std::__unguarded_insertion_sort` continuing from a sorted part. -/
def unguardedInsertionSortRev (sortedRev rest : List Resource) : List Resource :=
  rest.foldl (fun acc val => unguardedLinearInsert val acc) sortedRev

/-- The function `std::__final_insertion_sort` over the whole range. -/
def finalInsertionSort (l : List Resource) : List Resource :=
  if 16 < l.length then
    (unguardedInsertionSortRev (insertionSortRev (l.take 16)) (l.drop 16)).reverse
  else (insertionSortRev l).reverse

/-- The function `std::__lg`: floor of the binary logarithm. -/
def lgFuel : Nat → Nat → Nat
  | 0, _ => 0
  | fuel + 1, n => if n < 2 then 0 else lgFuel fuel (n / 2) + 1

/-- The function `std::__sort` of libstdc++ over a whole vector. -/
def libstdcxxSortFn (H : StdSort) (l : List Resource) : List Resource :=
  if l.isEmpty then l
  else finalInsertionSort (introsortLoop H (lgFuel l.length l.length * 2) l 0 l.length)

/-- The `std::sort` of GNU libstdc++ as a `StdSort`.  The test on the result is never
false (`libstdcxxSort_sort`): it is there so that the two fields of the contract can
be filled in before anything is proved about the algorithm. -/
def libstdcxxSort (H : StdSort) : StdSort where
  sort := fun l =>
    if (libstdcxxSortFn H l).Perm l
        ∧ (libstdcxxSortFn H l).Pairwise (fun a b => ¬ b.size < a.size) then
      libstdcxxSortFn H l
    else insertionSortBySize l
  perm := fun l => by
    beta_reduce
    split
    · next h => exact h.1
    · exact List.perm_insertionSort _ l
  sorted := fun l => by
    beta_reduce
    split
    · next h => exact h.2
    · exact (List.sorted_insertionSort (fun a b : Resource => a.size ≤ b.size) l).imp
        (fun h => Nat.not_lt.mpr h)

/-- A catalog of seventeen textures of 1 MB each. -/
def seventeenTextures : List Resource :=
  [⟨"Texture01", 1024 * 1024⟩, ⟨"Texture02", 1024 * 1024⟩, ⟨"Texture03", 1024 * 1024⟩,
   ⟨"Texture04", 1024 * 1024⟩, ⟨"Texture05", 1024 * 1024⟩, ⟨"Texture06", 1024 * 1024⟩,
   ⟨"Texture07", 1024 * 1024⟩, ⟨"Texture08", 1024 * 1024⟩, ⟨"Texture09", 1024 * 1024⟩,
   ⟨"Texture10", 1024 * 1024⟩, ⟨"Texture11", 1024 * 1024⟩, ⟨"Texture12", 1024 * 1024⟩,
   ⟨"Texture13", 1024 * 1024⟩, ⟨"Texture14", 1024 * 1024⟩, ⟨"Texture15", 1024 * 1024⟩,
   ⟨"Texture16", 1024 * 1024⟩, ⟨"Texture17", 1024 * 1024⟩]

/-- How a call ends: it returns, or an exception leaves it.  Either way the value is
the state reached by then.  The source has no `try` and no `catch`, so an exception
that leaves a call leaves its caller too. -/
inductive Completion (α : Type) where
  | returned (value : α)
  | thrown (atThrow : α)
deriving DecidableEq, Repr

/-- A load step (`loadResource`, return type `void`) that an exception may leave. -/
abbrev ThrowingLoader := Resource → Output → Completion Output

/-- A load step that always returns, made from a `Loader`. -/
def returningLoader (L : Loader) : ThrowingLoader :=
  fun resource out => Completion.returned (L resource out).1

/-- The function `loadResourceToMemory` with a load step that may throw. -/
def loadResourceToMemoryThrowing (T : ThrowingLoader) (resource : Resource)
    (out : Output) : Completion Output :=
  T resource (out ++ ["Loading resource: " ++ resource.name])

/-- The function `cacheResource` with a load step that may throw: `updateCacheTable`
runs only after `loadResourceToMemory` has returned. -/
def cacheResourceThrowing (T : ThrowingLoader) (resource : Resource) (out : Output) :
    Completion Output :=
  match loadResourceToMemoryThrowing T resource out with
  | Completion.returned loaded => Completion.returned (updateCacheTable resource loaded)
  | Completion.thrown atThrow => Completion.thrown atThrow

/-- The loop of `updateCache` with a load step that may throw: the resource joins
`committed`, and its size the running usage, only after `cacheResource` has
returned; an exception ends the pass in the state it finds. -/
def updateCacheLoopThrowing (T : ThrowingLoader) (maxLimit : Nat) :
    List Resource → PassState → Completion PassState
  | [], st => Completion.returned st
  | resource :: rest, st =>
    if canCacheResource maxLimit st.currentMemoryUsage resource then
      match cacheResourceThrowing T resource st.out with
      | Completion.returned cached =>
        updateCacheLoopThrowing T maxLimit rest
          { currentMemoryUsage := (st.currentMemoryUsage + resource.size) % SIZE_MOD
            committed := st.committed ++ [resource]
            usageLog := st.usageLog ++ [(st.currentMemoryUsage + resource.size) % SIZE_MOD]
            out := cached }
      | Completion.thrown atThrow =>
        Completion.thrown
          { currentMemoryUsage := st.currentMemoryUsage
            committed := st.committed
            usageLog := st.usageLog
            out := atThrow }
    else Completion.returned st

@[simp] theorem totalSize_nil : totalSize [] = 0 := rfl

@[simp] theorem totalSize_cons (r : Resource) (l : List Resource) :
    totalSize (r :: l) = r.size + totalSize l := by
  simp [totalSize]

theorem loop_committed (L : Loader) (maxLimit : Nat) (l : List Resource) (st : PassState) :
    (updateCacheLoop L maxLimit l st).committed
      = st.committed ++ admitted maxLimit st.currentMemoryUsage l := by
  induction l generalizing st with
  | nil => simp [updateCacheLoop, admitted]
  | cons r rs ih =>
    by_cases h : canCacheResource maxLimit st.currentMemoryUsage r = true
    · simp [updateCacheLoop, admitted, h, ih]
    · simp [updateCacheLoop, admitted, h]

theorem updateCache_committed (L : Loader) (baseline maxLimit : Nat) (l : List Resource) :
    (updateCache L baseline maxLimit l).committed = admitted maxLimit baseline l := by
  simp [updateCache, loop_committed]

theorem admitted_isPrefix (maxLimit : Nat) (l : List Resource) (cur : Nat) :
    admitted maxLimit cur l <+: l := by
  induction l generalizing cur with
  | nil => simp [admitted]
  | cons r rs ih =>
    by_cases h : canCacheResource maxLimit cur r = true
    · simp only [admitted, h, if_true]
      exact (List.prefix_cons_inj r).mpr (ih _)
    · simp [admitted, h]

theorem loop_usageLog (L : Loader) (maxLimit : Nat) (l : List Resource) (st : PassState) :
    ∀ u ∈ (updateCacheLoop L maxLimit l st).usageLog, u ∈ st.usageLog ∨ u ≤ maxLimit := by
  induction l generalizing st with
  | nil => intro u hu; exact Or.inl (by simpa [updateCacheLoop] using hu)
  | cons r rs ih =>
    intro u hu
    by_cases h : canCacheResource maxLimit st.currentMemoryUsage r = true
    · simp only [updateCacheLoop, h, if_true] at hu
      rcases ih _ u hu with h1 | h1
      · simp only [List.mem_append, List.mem_singleton] at h1
        rcases h1 with h1 | h1
        · exact Or.inl h1
        · right
          rw [h1]
          simpa [canCacheResource] using h
      · exact Or.inr h1
    · simp only [updateCacheLoop, h] at hu
      exact Or.inl (by simpa using hu)

theorem loop_usageLog_length (L : Loader) (maxLimit : Nat) (l : List Resource)
    (st : PassState) (hst : st.usageLog.length = st.committed.length) :
    (updateCacheLoop L maxLimit l st).usageLog.length
      = (updateCacheLoop L maxLimit l st).committed.length := by
  induction l generalizing st with
  | nil => simpa [updateCacheLoop] using hst
  | cons r rs ih =>
    by_cases h : canCacheResource maxLimit st.currentMemoryUsage r = true
    · simp only [updateCacheLoop, h, if_true]
      exact ih _ (by simp [hst])
    · simpa [updateCacheLoop, h] using hst

theorem loop_usage_last (L : Loader) (maxLimit baseline : Nat) (l : List Resource)
    (st : PassState) (hst : st.currentMemoryUsage = st.usageLog.getLast?.getD baseline) :
    (updateCacheLoop L maxLimit l st).currentMemoryUsage
      = (updateCacheLoop L maxLimit l st).usageLog.getLast?.getD baseline := by
  induction l generalizing st with
  | nil => simpa [updateCacheLoop] using hst
  | cons r rs ih =>
    by_cases h : canCacheResource maxLimit st.currentMemoryUsage r = true
    · simp only [updateCacheLoop, h, if_true]
      exact ih _ (by simp)
    · simpa [updateCacheLoop, h] using hst

theorem loop_append (L : Loader) (maxLimit : Nat) (pre l : List Resource) (st : PassState)
    (hpre : (updateCacheLoop L maxLimit pre st).committed = st.committed ++ pre) :
    updateCacheLoop L maxLimit (pre ++ l) st
      = updateCacheLoop L maxLimit l (updateCacheLoop L maxLimit pre st) := by
  induction pre generalizing st with
  | nil => simp [updateCacheLoop]
  | cons r rs ih =>
    by_cases h : canCacheResource maxLimit st.currentMemoryUsage r = true
    · simp only [updateCacheLoop, h, if_true, List.cons_append] at hpre ⊢
      exact ih _ (by simpa using hpre)
    · simp only [updateCacheLoop, h] at hpre
      have := congrArg List.length hpre
      simp at this

theorem admitted_total_le (maxLimit : Nat) (l : List Resource) (cur : Nat)
    (hcur : cur ≤ maxLimit) (hno : cur + totalSize l < SIZE_MOD) :
    cur + totalSize (admitted maxLimit cur l) ≤ maxLimit := by
  induction l generalizing cur with
  | nil => simpa [admitted] using hcur
  | cons r rs ih =>
    rw [totalSize_cons] at hno
    have hmod : (cur + r.size) % SIZE_MOD = cur + r.size := Nat.mod_eq_of_lt (by omega)
    by_cases h : canCacheResource maxLimit cur r = true
    · have hle : cur + r.size ≤ maxLimit := by
        simpa [canCacheResource, hmod] using h
      simp only [admitted, h, if_true, totalSize_cons, hmod]
      have := ih (cur + r.size) hle (by omega)
      omega
    · simpa [admitted, h] using hcur

theorem admitted_eq_specAdmitted (maxLimit : Nat) (l : List Resource) (cur : Nat)
    (hno : cur + totalSize l < SIZE_MOD) :
    admitted maxLimit cur l = specAdmitted maxLimit cur l := by
  induction l generalizing cur with
  | nil => simp [admitted, specAdmitted]
  | cons r rs ih =>
    rw [totalSize_cons] at hno
    have hmod : (cur + r.size) % SIZE_MOD = cur + r.size := Nat.mod_eq_of_lt (by omega)
    by_cases h : cur + r.size ≤ maxLimit
    · simp [admitted, specAdmitted, canCacheResource, hmod, h, ih (cur + r.size) (by omega)]
    · simp [admitted, specAdmitted, canCacheResource, hmod, h]

theorem specAdmitted_isPrefix (maxBudget : Nat) (l : List Resource) (usage : Nat) :
    specAdmitted maxBudget usage l <+: l := by
  induction l generalizing usage with
  | nil => simp [specAdmitted]
  | cons r rs ih =>
    by_cases h : usage + r.size ≤ maxBudget
    · simp only [specAdmitted, h, if_true]
      exact (List.prefix_cons_inj r).mpr (ih _)
    · simp [specAdmitted, h]

theorem specAdmitted_fits (maxBudget : Nat) (l : List Resource) (usage k : Nat)
    (hk : k < (specAdmitted maxBudget usage l).length) :
    usage + totalSize (l.take (k + 1)) ≤ maxBudget := by
  induction l generalizing usage k with
  | nil => simp [specAdmitted] at hk
  | cons r rs ih =>
    by_cases h : usage + r.size ≤ maxBudget
    · simp only [specAdmitted, h, if_true, List.length_cons] at hk
      cases k with
      | zero => simpa using h
      | succ j =>
        have := ih (usage + r.size) j (by omega)
        simp only [List.take_succ_cons, totalSize_cons]
        omega
    · simp [specAdmitted, h] at hk

theorem specAdmitted_stops_at_misfit (maxBudget : Nat) (l : List Resource) (usage : Nat)
    (hlt : (specAdmitted maxBudget usage l).length < l.length) :
    ¬ usage + totalSize (l.take ((specAdmitted maxBudget usage l).length + 1))
        ≤ maxBudget := by
  induction l generalizing usage with
  | nil => simp at hlt
  | cons r rs ih =>
    by_cases h : usage + r.size ≤ maxBudget
    · simp only [specAdmitted, h, if_true, List.length_cons] at hlt ⊢
      have := ih (usage + r.size) (by omega)
      simp only [List.take_succ_cons, totalSize_cons]
      omega
    · simp only [specAdmitted, h, if_false, List.length_nil, Nat.zero_add]
      simpa using h

/-! ## The budget walk: claims C1 to C4 -/

/-- C1 (counterexample): with a baseline of 200 MB, the limit of 100 MB of the source
and the built-in catalog, the pass commits nothing, and the sum of the committed
sizes (zero) plus the baseline is above the limit. -/
theorem C1_counterexample :
    (runPass stableSort loadResource (fun _ => 1) (200 * 1024 * 1024) getMaxMemoryLimit
        builtinCatalog).committed = []
    ∧ ¬ (totalSize (runPass stableSort loadResource (fun _ => 1) (200 * 1024 * 1024)
          getMaxMemoryLimit builtinCatalog).committed + 200 * 1024 * 1024
        ≤ getMaxMemoryLimit) := by
  decide

/-- C1 (amended): when the baseline usage is within the limit and the baseline plus
the sizes of all candidates stays below `2 ^ 64`, the sum of the sizes of the
resources `updateCache` passed to `cacheResource` plus the baseline is at most the
limit. -/
theorem C1_committed_total_within_limit (L : Loader) (baseline maxLimit : Nat)
    (resources : List Resource) (hbase : baseline ≤ maxLimit)
    (hno : baseline + totalSize resources < SIZE_MOD) :
    totalSize (updateCache L baseline maxLimit resources).committed + baseline
      ≤ maxLimit := by
  rw [updateCache_committed]
  have := admitted_total_le maxLimit resources baseline hbase hno
  omega

/-- C1 (witness): the amended claim at the baseline, limit and catalog of the source. -/
theorem C1_committed_total_within_limit_witness :
    getCurrentMemoryUsage ≤ getMaxMemoryLimit
    ∧ getCurrentMemoryUsage
        + totalSize (getResourcesToCache stableSort (fun _ => 1) builtinCatalog) < SIZE_MOD
    ∧ totalSize (updateCache loadResource getCurrentMemoryUsage getMaxMemoryLimit
          (getResourcesToCache stableSort (fun _ => 1) builtinCatalog)).committed
        + getCurrentMemoryUsage ≤ getMaxMemoryLimit :=
  ⟨by decide, by decide,
    C1_committed_total_within_limit loadResource getCurrentMemoryUsage getMaxMemoryLimit
      (getResourcesToCache stableSort (fun _ => 1) builtinCatalog) (by decide) (by decide)⟩

/-- C2: in `updateCache`, the value of `currentMemoryUsage` right after each commit
is at most the limit; there is one such value per call of `cacheResource`, and the
usage at the end of the pass is the last of them (the baseline when nothing was
committed). -/
theorem C2_usage_within_limit_after_every_commit (L : Loader) (baseline maxLimit : Nat)
    (resources : List Resource) :
    (∀ u ∈ (updateCache L baseline maxLimit resources).usageLog, u ≤ maxLimit)
    ∧ (updateCache L baseline maxLimit resources).usageLog.length
        = (updateCache L baseline maxLimit resources).committed.length
    ∧ (updateCache L baseline maxLimit resources).currentMemoryUsage
        = (updateCache L baseline maxLimit resources).usageLog.getLast?.getD baseline := by
  refine ⟨?_, ?_, ?_⟩
  · intro u hu
    rcases loop_usageLog L maxLimit resources _ u hu with h | h
    · simp at h
    · exact h
  · exact loop_usageLog_length L maxLimit resources _ rfl
  · exact loop_usage_last L maxLimit baseline resources _ rfl

/-- C3 (failing input): baseline 10 MB, limit 100 MB, one candidate of `2 ^ 64 - 1`
bytes.  The `size_t` sum wraps to 10 MB - 1, the candidate is committed, although
the baseline plus its size is above the limit: the longest fitting prefix is
empty. -/
theorem C3_wrapped_sum_commits_beyond_limit :
    (updateCache loadResource getCurrentMemoryUsage getMaxMemoryLimit
        [⟨"Texture1", 2 ^ 64 - 1⟩]).committed = [⟨"Texture1", 2 ^ 64 - 1⟩]
    ∧ ¬ (getCurrentMemoryUsage + (2 ^ 64 - 1) ≤ getMaxMemoryLimit)
    ∧ specAdmitted getMaxMemoryLimit getCurrentMemoryUsage [⟨"Texture1", 2 ^ 64 - 1⟩] = [] := by
  decide

/-- C4: when the walk has committed every candidate of `pre` and `canCacheResource`
returns false for the next candidate, the pass ends in the state it had after `pre`:
nothing at a later position is passed to `cacheResource`. -/
theorem C4_no_commit_after_rejection (L : Loader) (baseline maxLimit : Nat)
    (pre post : List Resource) (resource : Resource)
    (hpre : (updateCache L baseline maxLimit pre).committed = pre)
    (hrej : canCacheResource maxLimit
      (updateCache L baseline maxLimit pre).currentMemoryUsage resource = false) :
    updateCache L baseline maxLimit (pre ++ resource :: post)
        = updateCache L baseline maxLimit pre
    ∧ (updateCache L baseline maxLimit (pre ++ resource :: post)).committed = pre := by
  have happ : updateCache L baseline maxLimit (pre ++ resource :: post)
      = updateCache L baseline maxLimit pre := by
    unfold updateCache at hpre hrej ⊢
    rw [loop_append L maxLimit pre (resource :: post) _ (by simpa using hpre)]
    simp [updateCacheLoop, hrej]
  exact ⟨happ, by rw [happ, hpre]⟩

/-- C4 (witness): baseline 99 MB, limit 100 MB; Texture1 (512 KB) is committed,
Texture2 (2 MB) is rejected, and Audio1 (256 KB) after it would fit the remaining
headroom yet is not committed. -/
theorem C4_no_commit_after_rejection_witness :
    canCacheResource getMaxMemoryLimit
        (updateCache loadResource (99 * 1024 * 1024) getMaxMemoryLimit
          [⟨"Texture1", 512 * 1024⟩]).currentMemoryUsage ⟨"Audio1", 256 * 1024⟩ = true
    ∧ (updateCache loadResource (99 * 1024 * 1024) getMaxMemoryLimit
        ([⟨"Texture1", 512 * 1024⟩] ++ ⟨"Texture2", 2048 * 1024⟩ :: [⟨"Audio1", 256 * 1024⟩])
        = updateCache loadResource (99 * 1024 * 1024) getMaxMemoryLimit
            [⟨"Texture1", 512 * 1024⟩]
      ∧ (updateCache loadResource (99 * 1024 * 1024) getMaxMemoryLimit
          ([⟨"Texture1", 512 * 1024⟩] ++ ⟨"Texture2", 2048 * 1024⟩ ::
            [⟨"Audio1", 256 * 1024⟩])).committed = [⟨"Texture1", 512 * 1024⟩]) :=
  ⟨by decide,
    C4_no_commit_after_rejection loadResource (99 * 1024 * 1024) getMaxMemoryLimit
      [⟨"Texture1", 512 * 1024⟩] [⟨"Audio1", 256 * 1024⟩] ⟨"Texture2", 2048 * 1024⟩
      (by decide) (by decide)⟩

/-! ## The filtering loop of `getResourcesToCache`: claims C5, C6 and C8 -/

theorem filterLoop_eq (draws : Nat → Nat) (l : List Resource) (i : Nat) (acc : List Resource) :
    filterLoop draws i l acc = acc ++ kept draws i l := by
  induction l generalizing i acc with
  | nil => simp [filterLoop, kept]
  | cons r rs ih =>
    by_cases h : isFrequentlyUsed r (draws i) = true
    · simp [filterLoop, kept, h, ih]
    · simp [filterLoop, kept, h, ih]

theorem getResourcesToCache_eq (S : StdSort) (draws : Nat → Nat) (catalog : List Resource) :
    getResourcesToCache S draws catalog = kept draws 0 (S.sort catalog) := by
  simp [getResourcesToCache, filterLoop_eq]

theorem kept_eq_enum (draws : Nat → Nat) (l : List Resource) (i : Nat) :
    kept draws i l
      = ((l.enumFrom i).filter (fun p => isFrequentlyUsed p.2 (draws p.1))).map Prod.snd := by
  induction l generalizing i with
  | nil => simp [kept]
  | cons r rs ih =>
    by_cases h : isFrequentlyUsed r (draws i) = true
    · simp [kept, h, ih, List.enumFrom_cons, List.filter_cons]
    · simp [kept, h, ih, List.enumFrom_cons, List.filter_cons]

theorem kept_sublist (draws : Nat → Nat) (l : List Resource) (i : Nat) :
    (kept draws i l).Sublist l := by
  induction l generalizing i with
  | nil => simp [kept]
  | cons r rs ih =>
    by_cases h : isFrequentlyUsed r (draws i) = true
    · simp only [kept, h, if_true]
      exact (ih _).cons₂ r
    · simp only [kept, h]
      exact (ih _).cons r

theorem kept_call (draws : Nat → Nat) (l : List Resource) (i : Nat) :
    ∀ r ∈ kept draws i l, ∃ k, l[k]? = some r ∧ isFrequentlyUsed r (draws (i + k)) = true := by
  induction l generalizing i with
  | nil => simp [kept]
  | cons a rs ih =>
    intro r hr
    by_cases h : isFrequentlyUsed a (draws i) = true
    · simp only [kept, h, if_true, List.mem_cons] at hr
      rcases hr with hr | hr
      · exact ⟨0, by simp [hr], by simpa [hr] using h⟩
      · obtain ⟨k, hk1, hk2⟩ := ih (i + 1) r hr
        exact ⟨k + 1, by simpa using hk1, by rw [← hk2]; congr 2; omega⟩
    · simp only [kept, h] at hr
      obtain ⟨k, hk1, hk2⟩ := ih (i + 1) r hr
      exact ⟨k + 1, by simpa using hk1, by rw [← hk2]; congr 2; omega⟩

theorem getResourcesToCache_sublist (S : StdSort) (draws : Nat → Nat)
    (catalog : List Resource) :
    (getResourcesToCache S draws catalog).Sublist (S.sort catalog) := by
  rw [getResourcesToCache_eq]
  exact kept_sublist draws _ 0

theorem getResourcesToCache_pairwise (S : StdSort) (draws : Nat → Nat)
    (catalog : List Resource) :
    (getResourcesToCache S draws catalog).Pairwise (fun a b => a.size ≤ b.size) :=
  ((S.sorted catalog).imp (fun h => Nat.not_lt.mp h)).sublist
    (getResourcesToCache_sublist S draws catalog)

theorem runPass_committed_isPrefix (S : StdSort) (L : Loader) (draws : Nat → Nat)
    (baseline maxLimit : Nat) (catalog : List Resource) :
    (runPass S L draws baseline maxLimit catalog).committed
      <+: getResourcesToCache S draws catalog := by
  unfold runPass
  rw [updateCache_committed]
  exact admitted_isPrefix _ _ _

/-- C5: the list `getResourcesToCache` returns consists of exactly the resources, in
sorted order, for which the call of `isFrequentlyUsed` returned true; each of them is
a catalog resource; a resource for which every call returned false is neither in
that list nor passed to `cacheResource`, whatever the baseline and the limit; and
`updateCache` commits only resources of that list. -/
theorem C5_only_frequently_used_are_listed (S : StdSort) (L : Loader) (draws : Nat → Nat)
    (baseline maxLimit : Nat) (catalog : List Resource) :
    getResourcesToCache S draws catalog
        = (((S.sort catalog).enum.filter
            (fun p => isFrequentlyUsed p.2 (draws p.1))).map Prod.snd)
    ∧ (∀ r ∈ getResourcesToCache S draws catalog,
        r ∈ catalog
        ∧ ∃ k, (S.sort catalog)[k]? = some r ∧ isFrequentlyUsed r (draws k) = true)
    ∧ (∀ r, (∀ k, (S.sort catalog)[k]? = some r → isFrequentlyUsed r (draws k) = false) →
        r ∉ getResourcesToCache S draws catalog
        ∧ r ∉ (runPass S L draws baseline maxLimit catalog).committed)
    ∧ (runPass S L draws baseline maxLimit catalog).committed
        <+: getResourcesToCache S draws catalog := by
  have hcall : ∀ r ∈ getResourcesToCache S draws catalog,
      ∃ k, (S.sort catalog)[k]? = some r ∧ isFrequentlyUsed r (draws k) = true := by
    intro r hr
    rw [getResourcesToCache_eq] at hr
    obtain ⟨k, hk1, hk2⟩ := kept_call draws _ 0 r hr
    exact ⟨k, hk1, by simpa using hk2⟩
  have hpre := runPass_committed_isPrefix S L draws baseline maxLimit catalog
  refine ⟨?_, ?_, ?_, hpre⟩
  · rw [getResourcesToCache_eq, kept_eq_enum, List.enum]
  · intro r hr
    exact ⟨(S.perm catalog).subset ((getResourcesToCache_sublist S draws catalog).subset hr),
      hcall r hr⟩
  · intro r hfalse
    have hnot : r ∉ getResourcesToCache S draws catalog := by
      intro hr
      obtain ⟨k, hk1, hk2⟩ := hcall r hr
      rw [hfalse k hk1] at hk2
      exact Bool.false_ne_true hk2
    exact ⟨hnot, fun hc => hnot (hpre.subset hc)⟩

/-- C6: the list `getResourcesToCache` returns is in non-decreasing order of size, and
so is the sequence of resources `updateCache` commits: of two committed resources the
one committed earlier is not the larger. -/
theorem C6_ascending_size_order (S : StdSort) (L : Loader) (draws : Nat → Nat)
    (baseline maxLimit : Nat) (catalog : List Resource) :
    (getResourcesToCache S draws catalog).Pairwise (fun a b => a.size ≤ b.size)
    ∧ (runPass S L draws baseline maxLimit catalog).committed.Pairwise
        (fun a b => a.size ≤ b.size) :=
  ⟨getResourcesToCache_pairwise S draws catalog,
    (getResourcesToCache_pairwise S draws catalog).sublist
      (runPass_committed_isPrefix S L draws baseline maxLimit catalog).sublist⟩

/-- C8: the list of frequently-used resources splits into the committed resources
followed by the ones the pass did not commit, and every committed resource has size at
most the size of every one that was not committed. -/
theorem C8_committed_not_larger_than_left_out (S : StdSort) (L : Loader)
    (draws : Nat → Nat) (baseline maxLimit : Nat) (catalog : List Resource) :
    ∃ leftOut : List Resource,
      getResourcesToCache S draws catalog
          = (runPass S L draws baseline maxLimit catalog).committed ++ leftOut
      ∧ ∀ a ∈ (runPass S L draws baseline maxLimit catalog).committed,
          ∀ b ∈ leftOut, a.size ≤ b.size := by
  obtain ⟨leftOut, h⟩ := runPass_committed_isPrefix S L draws baseline maxLimit catalog
  refine ⟨leftOut, h.symm, ?_⟩
  have hp := getResourcesToCache_pairwise S draws catalog
  rw [← h, List.pairwise_append] at hp
  exact hp.2.2

/-! ## Ties under `std::sort`: claim C7 -/

theorem orderedInsert_filter_size (s : Nat) (a : Resource) (l : List Resource) :
    (l.orderedInsert (fun x y => x.size ≤ y.size) a).filter (fun r => decide (r.size = s))
      = (a :: l).filter (fun r => decide (r.size = s)) := by
  induction l with
  | nil => simp
  | cons b bs ih =>
    by_cases hab : a.size ≤ b.size
    · simp [List.orderedInsert, hab]
    · have hlt : b.size < a.size := Nat.lt_of_not_le hab
      simp only [List.orderedInsert, hab, if_false]
      rw [List.filter_cons, ih]
      by_cases ha : a.size = s
      · have hb : b.size ≠ s := by omega
        simp [List.filter_cons, ha, hb]
      · simp [List.filter_cons, ha]

theorem insertionSortBySize_filter_size (s : Nat) (l : List Resource) :
    (insertionSortBySize l).filter (fun r => decide (r.size = s))
      = l.filter (fun r => decide (r.size = s)) := by
  induction l with
  | nil => simp [insertionSortBySize]
  | cons a as ih =>
    unfold insertionSortBySize at ih ⊢
    rw [List.insertionSort, orderedInsert_filter_size, List.filter_cons, List.filter_cons, ih]

theorem stableSort_tiesInCatalogOrder (catalog : List Resource) :
    tiesInCatalogOrder catalog (stableSort.sort catalog) := by
  intro s
  show ((insertionSortBySize catalog).filter _).Sublist _
  rw [insertionSortBySize_filter_size]

/-- When the `std::sort` in use leaves the resources of equal size of a catalog in
catalog order, so does the list `getResourcesToCache` returns; on the built-in catalog
Texture1 then precedes Audio2 whenever both are returned. -/
theorem ties_in_catalog_order_of_stable_sort (S : StdSort) (draws : Nat → Nat)
    (catalog : List Resource) (hstable : tiesInCatalogOrder catalog (S.sort catalog)) :
    tiesInCatalogOrder catalog (getResourcesToCache S draws catalog)
    ∧ (catalog = builtinCatalog →
        (⟨"Texture1", 1024 * 1024⟩ : Resource) ∈ getResourcesToCache S draws catalog →
        (⟨"Audio2", 1024 * 1024⟩ : Resource) ∈ getResourcesToCache S draws catalog →
        [(⟨"Texture1", 1024 * 1024⟩ : Resource), ⟨"Audio2", 1024 * 1024⟩].Sublist
          (getResourcesToCache S draws catalog)) := by
  have hties : tiesInCatalogOrder catalog (getResourcesToCache S draws catalog) :=
    fun s => ((getResourcesToCache_sublist S draws catalog).filter _).trans (hstable s)
  refine ⟨hties, ?_⟩
  intro hcat ht ha
  have hsub := hties (1024 * 1024)
  have hfil : catalog.filter (fun r => decide (r.size = 1024 * 1024))
      = [(⟨"Texture1", 1024 * 1024⟩ : Resource), ⟨"Audio2", 1024 * 1024⟩] := by
    rw [hcat]; decide
  rw [hfil] at hsub
  have ht2 : (⟨"Texture1", 1024 * 1024⟩ : Resource) ∈
      (getResourcesToCache S draws catalog).filter (fun r => decide (r.size = 1024 * 1024)) :=
    List.mem_filter.mpr ⟨ht, by simp⟩
  have ha2 : (⟨"Audio2", 1024 * 1024⟩ : Resource) ∈
      (getResourcesToCache S draws catalog).filter (fun r => decide (r.size = 1024 * 1024)) :=
    List.mem_filter.mpr ⟨ha, by simp⟩
  have hlen : 2 ≤ ((getResourcesToCache S draws catalog).filter
      (fun r => decide (r.size = 1024 * 1024))).length := by
    generalize (getResourcesToCache S draws catalog).filter
      (fun r => decide (r.size = 1024 * 1024)) = m at hsub ht2 ha2
    match m, ht2, ha2 with
    | [], ht2, _ => simp at ht2
    | [x], ht2, ha2 =>
      simp only [List.mem_singleton] at ht2 ha2
      rw [← ht2] at ha2
      exact absurd ha2 (by decide)
    | _ :: _ :: _, _, _ => simp
  have heq := hsub.eq_of_length_le (by simpa using hlen)
  rw [← heq]
  exact List.filter_sublist _

/-! ## The insertion sort of libstdc++ -/

theorem unguardedLinearInsert_perm (val : Resource) (before : List Resource) :
    (unguardedLinearInsert val before).Perm (val :: before) := by
  induction before with
  | nil => simp [unguardedLinearInsert]
  | cons next rest ih =>
    by_cases h : sizeLess val next = true
    · simp only [unguardedLinearInsert, h, if_true]
      exact (List.Perm.cons next ih).trans (List.Perm.swap val next rest)
    · simp [unguardedLinearInsert, h]

theorem unguardedLinearInsert_descending (val : Resource) (before : List Resource)
    (hdesc : before.Pairwise (fun a b => b.size ≤ a.size)) :
    (unguardedLinearInsert val before).Pairwise (fun a b => b.size ≤ a.size) := by
  induction before with
  | nil => simp [unguardedLinearInsert]
  | cons next rest ih =>
    by_cases h : sizeLess val next = true
    · simp only [unguardedLinearInsert, h, if_true]
      have hlt : val.size < next.size := by simpa [sizeLess] using h
      refine List.pairwise_cons.mpr ⟨?_, ih (List.pairwise_cons.mp hdesc).2⟩
      intro b hb
      rcases List.mem_cons.mp ((unguardedLinearInsert_perm val rest).subset hb) with hb | hb
      · rw [hb]; omega
      · exact (List.pairwise_cons.mp hdesc).1 b hb
    · have hle : next.size ≤ val.size := by
        have : ¬ val.size < next.size := by simpa [sizeLess] using h
        omega
      simp only [unguardedLinearInsert, h]
      refine List.pairwise_cons.mpr ⟨?_, hdesc⟩
      intro b hb
      rcases List.mem_cons.mp hb with hb | hb
      · rw [hb]; exact hle
      · exact Nat.le_trans ((List.pairwise_cons.mp hdesc).1 b hb) hle

theorem unguardedLinearInsert_filter_size (s : Nat) (val : Resource)
    (before : List Resource) :
    (unguardedLinearInsert val before).filter (fun r => decide (r.size = s))
      = (val :: before).filter (fun r => decide (r.size = s)) := by
  induction before with
  | nil => simp [unguardedLinearInsert]
  | cons next rest ih =>
    by_cases h : sizeLess val next = true
    · have hlt : val.size < next.size := by simpa [sizeLess] using h
      simp only [unguardedLinearInsert, h, if_true]
      rw [List.filter_cons, ih]
      by_cases hv : val.size = s
      · have hn : next.size ≠ s := by omega
        simp [List.filter_cons, hv, hn]
      · simp [List.filter_cons, hv]
    · simp [unguardedLinearInsert, h]

theorem getLast?_le_of_descending (l : List Resource) (f : Resource)
    (hdesc : l.Pairwise (fun a b => b.size ≤ a.size)) (hlast : l.getLast? = some f) :
    ∀ e ∈ l, f.size ≤ e.size := by
  induction l with
  | nil => simp at hlast
  | cons a t ih =>
    cases t with
    | nil =>
      intro e he
      simp only [List.getLast?_singleton, Option.some.injEq] at hlast
      simp only [List.mem_singleton] at he
      rw [he, hlast]
    | cons b t' =>
      rw [List.getLast?_cons_cons] at hlast
      have ih' := ih (List.pairwise_cons.mp hdesc).2 hlast
      intro e he
      rcases List.mem_cons.mp he with he | he
      · rw [he]
        exact Nat.le_trans (ih' b (by simp)) ((List.pairwise_cons.mp hdesc).1 b (by simp))
      · exact ih' e he

theorem insertionStep_perm (sortedRev : List Resource) (val : Resource) :
    (insertionStep sortedRev val).Perm (val :: sortedRev) := by
  unfold insertionStep
  cases hlast : sortedRev.getLast? with
  | none =>
    have : sortedRev = [] := by simpa using hlast
    simp [this]
  | some f =>
    by_cases h : sizeLess val f = true
    · simp only [h, if_true]
      exact List.perm_append_singleton val sortedRev
    · simp only [h]
      exact unguardedLinearInsert_perm val sortedRev

theorem insertionStep_descending (sortedRev : List Resource) (val : Resource)
    (hdesc : sortedRev.Pairwise (fun a b => b.size ≤ a.size)) :
    (insertionStep sortedRev val).Pairwise (fun a b => b.size ≤ a.size) := by
  unfold insertionStep
  cases hlast : sortedRev.getLast? with
  | none => simp
  | some f =>
    by_cases h : sizeLess val f = true
    · have hlt : val.size < f.size := by simpa [sizeLess] using h
      simp only [h, if_true]
      rw [List.pairwise_append]
      refine ⟨hdesc, by simp, ?_⟩
      intro a ha b hb
      simp only [List.mem_singleton] at hb
      have := getLast?_le_of_descending sortedRev f hdesc hlast a ha
      rw [hb]; omega
    · simp only [h]
      exact unguardedLinearInsert_descending val sortedRev hdesc

theorem insertionStep_filter_size (s : Nat) (sortedRev : List Resource) (val : Resource)
    (hdesc : sortedRev.Pairwise (fun a b => b.size ≤ a.size)) :
    (insertionStep sortedRev val).filter (fun r => decide (r.size = s))
      = (val :: sortedRev).filter (fun r => decide (r.size = s)) := by
  unfold insertionStep
  cases hlast : sortedRev.getLast? with
  | none =>
    have : sortedRev = [] := by simpa using hlast
    simp [this]
  | some f =>
    by_cases h : sizeLess val f = true
    · have hlt : val.size < f.size := by simpa [sizeLess] using h
      simp only [h, if_true]
      by_cases hv : val.size = s
      · have hnone : sortedRev.filter (fun r => decide (r.size = s)) = [] := by
          rw [List.filter_eq_nil_iff]
          intro a ha
          have := getLast?_le_of_descending sortedRev f hdesc hlast a ha
          simp only [decide_eq_true_eq]
          omega
        simp [List.filter_cons, hv, hnone]
      · simp [List.filter_cons, hv]
    · simp only [h]
      exact unguardedLinearInsert_filter_size s val sortedRev

theorem foldl_insertionStep_spec (s : Nat) (rest acc : List Resource)
    (hdesc : acc.Pairwise (fun a b => b.size ≤ a.size)) :
    (rest.foldl insertionStep acc).Perm (acc ++ rest)
    ∧ (rest.foldl insertionStep acc).Pairwise (fun a b => b.size ≤ a.size)
    ∧ (rest.foldl insertionStep acc).filter (fun r => decide (r.size = s))
        = (rest.reverse ++ acc).filter (fun r => decide (r.size = s)) := by
  induction rest generalizing acc with
  | nil => simpa using hdesc
  | cons val rest ih =>
    obtain ⟨h1, h2, h3⟩ := ih (insertionStep acc val) (insertionStep_descending acc val hdesc)
    refine ⟨?_, h2, ?_⟩
    · simp only [List.foldl_cons]
      refine h1.trans ?_
      have hp := insertionStep_perm acc val
      have : (insertionStep acc val ++ rest).Perm ((val :: acc) ++ rest) := hp.append_right rest
      refine this.trans ?_
      simpa using (@List.perm_middle _ val acc rest).symm
    · simp only [List.foldl_cons, List.reverse_cons, List.append_assoc, List.singleton_append]
      rw [h3, List.filter_append, List.filter_append,
        insertionStep_filter_size s acc val hdesc]

theorem foldl_unguardedLinearInsert_spec (s : Nat) (rest acc : List Resource)
    (hdesc : acc.Pairwise (fun a b => b.size ≤ a.size)) :
    (unguardedInsertionSortRev acc rest).Perm (acc ++ rest)
    ∧ (unguardedInsertionSortRev acc rest).Pairwise (fun a b => b.size ≤ a.size)
    ∧ (unguardedInsertionSortRev acc rest).filter (fun r => decide (r.size = s))
        = (rest.reverse ++ acc).filter (fun r => decide (r.size = s)) := by
  unfold unguardedInsertionSortRev
  induction rest generalizing acc with
  | nil => simpa using hdesc
  | cons val rest ih =>
    obtain ⟨h1, h2, h3⟩ := ih (unguardedLinearInsert val acc)
      (unguardedLinearInsert_descending val acc hdesc)
    refine ⟨?_, h2, ?_⟩
    · simp only [List.foldl_cons]
      refine h1.trans ?_
      have hp := unguardedLinearInsert_perm val acc
      have : (unguardedLinearInsert val acc ++ rest).Perm ((val :: acc) ++ rest) :=
        hp.append_right rest
      refine this.trans ?_
      simpa using (@List.perm_middle _ val acc rest).symm
    · simp only [List.foldl_cons, List.reverse_cons, List.append_assoc, List.singleton_append]
      rw [h3, List.filter_append, List.filter_append,
        unguardedLinearInsert_filter_size s val acc]

theorem insertionSortRev_spec (s : Nat) (l : List Resource) :
    (insertionSortRev l).Perm l
    ∧ (insertionSortRev l).Pairwise (fun a b => b.size ≤ a.size)
    ∧ (insertionSortRev l).filter (fun r => decide (r.size = s))
        = l.reverse.filter (fun r => decide (r.size = s)) := by
  cases l with
  | nil => simp [insertionSortRev]
  | cons x rest =>
    obtain ⟨h1, h2, h3⟩ := foldl_insertionStep_spec s rest [x] (by simp)
    exact ⟨by simpa [insertionSortRev] using h1, by simpa [insertionSortRev] using h2,
      by simpa [insertionSortRev] using h3⟩

theorem finalInsertionSort_spec (s : Nat) (l : List Resource) :
    (finalInsertionSort l).Perm l
    ∧ (finalInsertionSort l).Pairwise (fun a b => a.size ≤ b.size)
    ∧ (finalInsertionSort l).filter (fun r => decide (r.size = s))
        = l.filter (fun r => decide (r.size = s)) := by
  unfold finalInsertionSort
  by_cases hlen : 16 < l.length
  · simp only [hlen, if_true]
    obtain ⟨a1, a2, a3⟩ := insertionSortRev_spec s (l.take 16)
    obtain ⟨b1, b2, b3⟩ := foldl_unguardedLinearInsert_spec s (l.drop 16)
      (insertionSortRev (l.take 16)) a2
    refine ⟨?_, List.pairwise_reverse.mpr b2, ?_⟩
    · refine (List.reverse_perm _).trans (b1.trans ?_)
      have := a1.append_right (l.drop 16)
      simpa using this
    · rw [List.filter_reverse, b3, List.filter_append, a3, ← List.filter_append,
        ← List.reverse_append, List.take_append_drop, List.filter_reverse,
        List.reverse_reverse]
  · simp only [hlen, if_false]
    obtain ⟨a1, a2, a3⟩ := insertionSortRev_spec s l
    refine ⟨(List.reverse_perm _).trans a1, List.pairwise_reverse.mpr a2, ?_⟩
    rw [List.filter_reverse, a3, List.filter_reverse, List.reverse_reverse]

/-! ## The partitioning phase of libstdc++ -/

theorem perm_cons_set (a y : Resource) (t : List Resource) (j : Nat)
    (hj : t[j]? = some y) : (y :: t.set j a).Perm (a :: t) := by
  induction t generalizing j with
  | nil => simp at hj
  | cons b t ih =>
    cases j with
    | zero =>
      simp only [List.getElem?_cons_zero, Option.some.injEq] at hj
      subst hj
      simpa using List.Perm.swap a b t
    | succ k =>
      simp only [List.getElem?_cons_succ] at hj
      simp only [List.set_cons_succ]
      have h1 : (y :: b :: t.set k a).Perm (b :: y :: t.set k a) := List.Perm.swap b y _
      have h2 : (b :: y :: t.set k a).Perm (b :: a :: t) := List.Perm.cons b (ih k hj)
      exact h1.trans (h2.trans (List.Perm.swap a b t))

theorem set_set_perm (l : List Resource) (i j : Nat) (x y : Resource)
    (hi : l[i]? = some x) (hj : l[j]? = some y) : ((l.set i y).set j x).Perm l := by
  induction l generalizing i j with
  | nil => simp
  | cons a t ih =>
    cases i with
    | zero =>
      simp only [List.getElem?_cons_zero, Option.some.injEq] at hi
      subst hi
      cases j with
      | zero =>
        simp only [List.getElem?_cons_zero, Option.some.injEq] at hj
        subst hj
        simp
      | succ k =>
        simp only [List.getElem?_cons_succ] at hj
        simpa using perm_cons_set a y t k hj
    | succ m =>
      simp only [List.getElem?_cons_succ] at hi
      cases j with
      | zero =>
        simp only [List.getElem?_cons_zero, Option.some.injEq] at hj
        subst hj
        simpa using perm_cons_set a x t m hi
      | succ k =>
        simp only [List.getElem?_cons_succ] at hj
        simpa using ih m k hi hj

theorem iterSwap_perm (l : List Resource) (i j : Nat) : (iterSwap l i j).Perm l := by
  unfold iterSwap
  cases hi : l[i]? with
  | none => simp
  | some x =>
    cases hj : l[j]? with
    | none => simp
    | some y => exact set_set_perm l i j x y hi hj

theorem moveMedianToFirst_perm (l : List Resource) (result a b c : Nat) :
    (moveMedianToFirst l result a b c).Perm l := by
  unfold moveMedianToFirst
  split_ifs <;> exact iterSwap_perm _ _ _

theorem unguardedPartition_perm (fuel : Nat) (l : List Resource) (first last pivot : Nat)
    (r : List Resource × Nat) (h : unguardedPartition fuel l first last pivot = some r) :
    r.1.Perm l := by
  induction fuel generalizing l first last with
  | zero => simp [unguardedPartition] at h
  | succ fuel ih =>
    unfold unguardedPartition at h
    cases hp : l[pivot]? with
    | none =>
      simp only [hp, Option.some.injEq] at h
      rw [← h]
    | some p =>
      simp only [hp] at h
      split_ifs at h with hlt
      · exact (ih _ _ _ h).trans (iterSwap_perm _ _ _)
      · simp only [Option.some.injEq] at h
        rw [← h]

theorem unguardedPartitionPivot_perm (l : List Resource) (first last : Nat) :
    (unguardedPartitionPivot l first last).1.Perm l := by
  unfold unguardedPartitionPivot
  cases h : unguardedPartition (last - first)
      (moveMedianToFirst l first (first + 1) (first + (last - first) / 2) (last - 1))
      (first + 1) last first with
  | none => simp
  | some r =>
    simp only [Option.getD_some]
    exact (unguardedPartition_perm _ _ _ _ _ r h).trans (moveMedianToFirst_perm _ _ _ _ _)

theorem introsortLoop_perm (H : StdSort) (depthLimit : Nat) (l : List Resource)
    (first last : Nat) : (introsortLoop H depthLimit l first last).Perm l := by
  induction depthLimit generalizing l first last with
  | zero =>
    unfold introsortLoop
    split_ifs
    · have h1 : (H.sort ((l.drop first).take (last - first))).Perm
          ((l.drop first).take (last - first)) := H.perm _
      have h2 := (h1.append_right ((l.drop first).drop (last - first))).append_left
        (l.take first)
      rw [List.take_append_drop, List.take_append_drop] at h2
      simpa [List.append_assoc] using h2
    · exact List.Perm.refl l
  | succ d ih =>
    unfold introsortLoop
    split_ifs
    · exact (ih _ _ _).trans ((ih _ _ _).trans (unguardedPartitionPivot_perm l first last))
    · exact List.Perm.refl l

/-- The depth limit uses `std::__lg`, the floor of the binary logarithm. -/
theorem lgFuel_eq_log2 (fuel n : Nat) (h : n ≤ fuel) : lgFuel fuel n = Nat.log2 n := by
  induction fuel generalizing n with
  | zero =>
    have : n = 0 := by omega
    subst this
    simp [lgFuel, Nat.log2]
  | succ fuel ih =>
    unfold lgFuel
    rw [Nat.log2]
    by_cases h2 : n < 2
    · have : ¬ n ≥ 2 := by omega
      simp [h2, this]
    · have h3 : n ≥ 2 := by omega
      simp only [h2, if_false, h3, if_true]
      rw [ih (n / 2) (by omega)]

theorem libstdcxxSortFn_perm (H : StdSort) (l : List Resource) :
    (libstdcxxSortFn H l).Perm l := by
  unfold libstdcxxSortFn
  split_ifs
  · exact List.Perm.refl l
  · exact (finalInsertionSort_spec 0 _).1.trans (introsortLoop_perm H _ l 0 l.length)

theorem libstdcxxSortFn_sorted (H : StdSort) (l : List Resource) :
    (libstdcxxSortFn H l).Pairwise (fun a b => a.size ≤ b.size) := by
  unfold libstdcxxSortFn
  split_ifs with h
  · have : l = [] := by simpa using h
    simp [this]
  · exact (finalInsertionSort_spec 0 _).2.1

theorem introsortLoop_short (H : StdSort) (depthLimit : Nat) (l : List Resource)
    (first last : Nat) (hshort : last - first ≤ 16) :
    introsortLoop H depthLimit l first last = l := by
  have h : ¬ 16 < last - first := by omega
  cases depthLimit <;> simp [introsortLoop, h]

theorem libstdcxxSortFn_filter_size_of_short (H : StdSort) (s : Nat) (l : List Resource)
    (hlen : l.length ≤ 16) :
    (libstdcxxSortFn H l).filter (fun r => decide (r.size = s))
      = l.filter (fun r => decide (r.size = s)) := by
  unfold libstdcxxSortFn
  split_ifs
  · rfl
  · rw [introsortLoop_short H _ l 0 l.length (by simpa using hlen)]
    exact (finalInsertionSort_spec s l).2.2

/-! Enough fuel: every call of `unguardedPartition` made with more fuel than
`last - first` returns. -/

theorem le_advanceFirst (pivot : Resource) (l : List Resource) (first : Nat) :
    first ≤ advanceFirst pivot l first := by
  induction l generalizing first with
  | nil => simp [advanceFirst]
  | cons x rest ih =>
    unfold advanceFirst
    split_ifs
    · exact Nat.le_trans (Nat.le_succ first) (ih (first + 1))
    · exact Nat.le_refl first

theorem retreatLast_le (pivot : Resource) (l : List Resource) (last : Nat) :
    retreatLast pivot l last ≤ last := by
  induction l generalizing last with
  | nil => simp [retreatLast]
  | cons x rest ih =>
    unfold retreatLast
    split_ifs
    · exact Nat.le_trans (ih (last - 1)) (Nat.sub_le last 1)
    · exact Nat.le_refl last

theorem unguardedPartition_returns (fuel : Nat) (l : List Resource) (first last pivot : Nat)
    (hfuel : last - first < fuel) :
    (unguardedPartition fuel l first last pivot).isSome = true := by
  induction fuel generalizing l first last with
  | zero => omega
  | succ fuel ih =>
    unfold unguardedPartition
    cases hp : l[pivot]? with
    | none => simp
    | some p =>
      simp only
      split_ifs with hlt
      · apply ih
        have h1 := le_advanceFirst p (l.drop first) first
        have h2 := retreatLast_le p ((l.take last).reverse) (last - 1)
        omega
      · simp

theorem unguardedPartitionPivot_eq (l : List Resource) (first last : Nat)
    (hlong : 16 < last - first) :
    unguardedPartition (last - first)
        (moveMedianToFirst l first (first + 1) (first + (last - first) / 2) (last - 1))
        (first + 1) last first
      = some (unguardedPartitionPivot l first last) := by
  have h := unguardedPartition_returns (last - first)
    (moveMedianToFirst l first (first + 1) (first + (last - first) / 2) (last - 1))
    (first + 1) last first (by omega)
  unfold unguardedPartitionPivot
  cases hr : unguardedPartition (last - first)
      (moveMedianToFirst l first (first + 1) (first + (last - first) / 2) (last - 1))
      (first + 1) last first with
  | none => rw [hr] at h; simp at h
  | some r => simp

theorem libstdcxxSort_sort (H : StdSort) (l : List Resource) :
    (libstdcxxSort H).sort l = libstdcxxSortFn H l := by
  have h : (libstdcxxSortFn H l).Perm l
      ∧ (libstdcxxSortFn H l).Pairwise (fun a b => ¬ b.size < a.size) :=
    ⟨libstdcxxSortFn_perm H l,
      (libstdcxxSortFn_sorted H l).imp (fun h => Nat.not_lt.mpr h)⟩
  show (if _ then _ else _) = _
  rw [if_pos h]

theorem libstdcxxSort_tiesInCatalogOrder (H : StdSort) (catalog : List Resource)
    (hlen : catalog.length ≤ 16) :
    tiesInCatalogOrder catalog ((libstdcxxSort H).sort catalog) := by
  intro s
  rw [libstdcxxSort_sort, libstdcxxSortFn_filter_size_of_short H s catalog hlen]

theorem libstdcxxSortFn_seventeenTextures (H : StdSort) :
    libstdcxxSortFn H seventeenTextures
      = [⟨"Texture09", 1024 * 1024⟩, ⟨"Texture17", 1024 * 1024⟩, ⟨"Texture16", 1024 * 1024⟩,
         ⟨"Texture15", 1024 * 1024⟩, ⟨"Texture14", 1024 * 1024⟩, ⟨"Texture13", 1024 * 1024⟩,
         ⟨"Texture12", 1024 * 1024⟩, ⟨"Texture11", 1024 * 1024⟩, ⟨"Texture10", 1024 * 1024⟩,
         ⟨"Texture01", 1024 * 1024⟩, ⟨"Texture08", 1024 * 1024⟩, ⟨"Texture07", 1024 * 1024⟩,
         ⟨"Texture06", 1024 * 1024⟩, ⟨"Texture05", 1024 * 1024⟩, ⟨"Texture04", 1024 * 1024⟩,
         ⟨"Texture03", 1024 * 1024⟩, ⟨"Texture02", 1024 * 1024⟩] := by
  rfl

/-- C7 (counterexample): seventeen textures of 1 MB, all frequently used.  The
`std::sort` of libstdc++ partitions a range of more than 16 elements by swapping, and
the list `getResourcesToCache` returns starts with Texture09, Texture17, Texture16:
resources of equal size are not in catalog order, Texture09 stands before
Texture01. -/
theorem C7_counterexample :
    (getResourcesToCache (libstdcxxSort stableSort) (fun _ => 1) seventeenTextures).map
        Resource.name
      = ["Texture09", "Texture17", "Texture16", "Texture15", "Texture14", "Texture13",
          "Texture12", "Texture11", "Texture10", "Texture01", "Texture08", "Texture07",
          "Texture06", "Texture05", "Texture04", "Texture03", "Texture02"]
    ∧ ¬ tiesInCatalogOrder seventeenTextures
          (getResourcesToCache (libstdcxxSort stableSort) (fun _ => 1) seventeenTextures)
    ∧ ¬ [(⟨"Texture01", 1024 * 1024⟩ : Resource), ⟨"Texture09", 1024 * 1024⟩].Sublist
          (getResourcesToCache (libstdcxxSort stableSort) (fun _ => 1) seventeenTextures) := by
  refine ⟨by decide, ?_, by decide⟩
  intro h
  have h1 := h (1024 * 1024)
  revert h1
  decide

/-- C7 (amended): with the `std::sort` of libstdc++, for every catalog of at most 16
resources the resources of equal size stand in the list `getResourcesToCache` returns
in the relative order they have in the catalog; and for the built-in catalog Texture1
precedes Audio2 whenever both are returned. -/
theorem C7_ties_in_catalog_order_up_to_sixteen (H : StdSort) (draws : Nat → Nat)
    (catalog : List Resource) (hlen : catalog.length ≤ 16) :
    tiesInCatalogOrder catalog (getResourcesToCache (libstdcxxSort H) draws catalog)
    ∧ ((⟨"Texture1", 1024 * 1024⟩ : Resource)
          ∈ getResourcesToCache (libstdcxxSort H) draws builtinCatalog →
        (⟨"Audio2", 1024 * 1024⟩ : Resource)
          ∈ getResourcesToCache (libstdcxxSort H) draws builtinCatalog →
        [(⟨"Texture1", 1024 * 1024⟩ : Resource), ⟨"Audio2", 1024 * 1024⟩].Sublist
          (getResourcesToCache (libstdcxxSort H) draws builtinCatalog)) :=
  ⟨(ties_in_catalog_order_of_stable_sort (libstdcxxSort H) draws catalog
      (libstdcxxSort_tiesInCatalogOrder H catalog hlen)).1,
    (ties_in_catalog_order_of_stable_sort (libstdcxxSort H) draws builtinCatalog
      (libstdcxxSort_tiesInCatalogOrder H builtinCatalog (by decide))).2 rfl⟩

/-- C7 (witness): the built-in catalog has four resources; with both audio resources
frequently used the list is Audio1, Texture1, Audio2, Texture2, and with sixteen
textures of 1 MB the list is in catalog order. -/
theorem C7_ties_in_catalog_order_up_to_sixteen_witness :
    builtinCatalog.length ≤ 16
    ∧ (getResourcesToCache (libstdcxxSort stableSort) (fun _ => 1) builtinCatalog).map
        Resource.name = ["Audio1", "Texture1", "Audio2", "Texture2"]
    ∧ getResourcesToCache (libstdcxxSort stableSort) (fun _ => 1)
        (seventeenTextures.take 16) = seventeenTextures.take 16
    ∧ tiesInCatalogOrder builtinCatalog
        (getResourcesToCache (libstdcxxSort stableSort) (fun _ => 1) builtinCatalog)
    ∧ [(⟨"Texture1", 1024 * 1024⟩ : Resource), ⟨"Audio2", 1024 * 1024⟩].Sublist
        (getResourcesToCache (libstdcxxSort stableSort) (fun _ => 1) builtinCatalog) :=
  ⟨by decide, by decide, by decide,
    (C7_ties_in_catalog_order_up_to_sixteen stableSort (fun _ => 1) builtinCatalog
      (by decide)).1,
    (C7_ties_in_catalog_order_up_to_sixteen stableSort (fun _ => 1) builtinCatalog
      (by decide)).2 (by decide) (by decide)⟩

/-! ## A load that fails: claim C9 -/

theorem updateCacheLoopThrowing_returning (L : Loader) (maxLimit : Nat)
    (l : List Resource) (st : PassState) :
    updateCacheLoopThrowing (returningLoader L) maxLimit l st
      = Completion.returned (updateCacheLoop L maxLimit l st) := by
  induction l generalizing st with
  | nil => rfl
  | cons r rs ih =>
    by_cases h : canCacheResource maxLimit st.currentMemoryUsage r = true
    · simp only [updateCacheLoopThrowing, updateCacheLoop, h, if_true, cacheResourceThrowing,
        loadResourceToMemoryThrowing, returningLoader]
      exact ih _
    · simp [updateCacheLoopThrowing, updateCacheLoop, h]

/-- C10: `isFrequentlyUsed` is a total function.  For a name that contains neither
"Texture" nor "Audio" it is false for every value of the draw, and for a name that
contains "Texture" it is true for every value of the draw, also when the name
contains "Audio" as well. -/
theorem C10_predictor_total_with_default (resource : Resource) :
    (nameContains resource.name "Texture" = false →
      nameContains resource.name "Audio" = false →
      ∀ draw, isFrequentlyUsed resource draw = false)
    ∧ (nameContains resource.name "Texture" = true →
      ∀ draw, isFrequentlyUsed resource draw = true) := by
  constructor
  · intro ht ha draw
    simp [isFrequentlyUsed, ht, ha]
  · intro ht draw
    simp [isFrequentlyUsed, ht]

/-- C10 (witness): "Model1" contains neither word and is never frequently used;
"AudioTexture7" contains both and is always frequently used. -/
theorem C10_predictor_total_with_default_witness :
    nameContains "Model1" "Texture" = false
    ∧ nameContains "Model1" "Audio" = false
    ∧ (∀ draw, isFrequentlyUsed ⟨"Model1", 4096⟩ draw = false)
    ∧ nameContains "AudioTexture7" "Audio" = true
    ∧ nameContains "AudioTexture7" "Texture" = true
    ∧ (∀ draw, isFrequentlyUsed ⟨"AudioTexture7", 4096⟩ draw = true) :=
  ⟨by decide, by decide,
    (C10_predictor_total_with_default ⟨"Model1", 4096⟩).1 (by decide) (by decide),
    by decide, by decide,
    (C10_predictor_total_with_default ⟨"AudioTexture7", 4096⟩).2 (by decide)⟩

/-! ## Passes in which everything or nothing fits: claims C11 to C13 -/

theorem loop_all_fit (L : Loader) (maxLimit : Nat) (l : List Resource) (st : PassState)
    (hlim : maxLimit < SIZE_MOD) (hfit : st.currentMemoryUsage + totalSize l ≤ maxLimit) :
    (updateCacheLoop L maxLimit l st).committed = st.committed ++ l
    ∧ (updateCacheLoop L maxLimit l st).currentMemoryUsage
        = st.currentMemoryUsage + totalSize l := by
  induction l generalizing st with
  | nil => simp [updateCacheLoop]
  | cons r rs ih =>
    rw [totalSize_cons] at hfit
    have hmod : (st.currentMemoryUsage + r.size) % SIZE_MOD = st.currentMemoryUsage + r.size :=
      Nat.mod_eq_of_lt (by omega)
    have h : canCacheResource maxLimit st.currentMemoryUsage r = true := by
      simp only [canCacheResource, hmod, decide_eq_true_eq]
      omega
    simp only [updateCacheLoop, h, if_true, hmod, totalSize_cons]
    obtain ⟨h1, h2⟩ := ih
      { currentMemoryUsage := st.currentMemoryUsage + r.size
        committed := st.committed ++ [r]
        usageLog := st.usageLog ++ [st.currentMemoryUsage + r.size]
        out := cacheResource L r st.out } (by simpa using (by omega))
    exact ⟨by simpa using h1, by simpa [Nat.add_assoc] using h2⟩

/-- C11: when the limit is a `size_t` value and the baseline plus the sizes of all
frequently-used candidates is at most the limit, `updateCache` commits every
frequently-used candidate, in the order of the list, which is ascending in size, and
the final running usage is the baseline plus the sum of their sizes. -/
theorem C11_all_candidates_committed_when_all_fit (S : StdSort) (L : Loader)
    (draws : Nat → Nat) (baseline maxLimit : Nat) (catalog : List Resource)
    (hlim : maxLimit < SIZE_MOD)
    (hfit : baseline + totalSize (getResourcesToCache S draws catalog) ≤ maxLimit) :
    (runPass S L draws baseline maxLimit catalog).committed
        = getResourcesToCache S draws catalog
    ∧ (runPass S L draws baseline maxLimit catalog).committed.Pairwise
        (fun a b => a.size ≤ b.size)
    ∧ (runPass S L draws baseline maxLimit catalog).currentMemoryUsage
        = baseline + totalSize (getResourcesToCache S draws catalog) := by
  have h := loop_all_fit L maxLimit (getResourcesToCache S draws catalog)
    { currentMemoryUsage := baseline, committed := [], usageLog := [], out := [] } hlim hfit
  have hc : (runPass S L draws baseline maxLimit catalog).committed
      = getResourcesToCache S draws catalog := by
    simpa [runPass, updateCache] using h.1
  refine ⟨hc, ?_, by simpa [runPass, updateCache] using h.2⟩
  rw [hc]
  exact getResourcesToCache_pairwise S draws catalog

/-- C11 (witness): baseline 10 MB, limit 100 MB, built-in catalog, Audio1 frequently
used (draw 1) and Audio2 not (draw 8 in the third call): the pass commits Audio1,
Texture1 and Texture2 in that order, three entries, and ends at 13.5 MB. -/
theorem C11_all_candidates_committed_when_all_fit_witness :
    (getResourcesToCache stableSort (fun k => if k = 2 then 8 else 1) builtinCatalog)
        = [⟨"Audio1", 512 * 1024⟩, ⟨"Texture1", 1024 * 1024⟩, ⟨"Texture2", 2048 * 1024⟩]
    ∧ (runPass stableSort loadResource (fun k => if k = 2 then 8 else 1)
        getCurrentMemoryUsage getMaxMemoryLimit builtinCatalog).committed.length = 3
    ∧ 10 * 1024 * 1024 + 512 * 1024 + 1024 * 1024 + 2048 * 1024 = 14155776
    ∧ ((runPass stableSort loadResource (fun k => if k = 2 then 8 else 1)
          getCurrentMemoryUsage getMaxMemoryLimit builtinCatalog).committed
        = getResourcesToCache stableSort (fun k => if k = 2 then 8 else 1) builtinCatalog
      ∧ (runPass stableSort loadResource (fun k => if k = 2 then 8 else 1)
          getCurrentMemoryUsage getMaxMemoryLimit builtinCatalog).committed.Pairwise
          (fun a b => a.size ≤ b.size)
      ∧ (runPass stableSort loadResource (fun k => if k = 2 then 8 else 1)
          getCurrentMemoryUsage getMaxMemoryLimit builtinCatalog).currentMemoryUsage
        = getCurrentMemoryUsage + totalSize
            (getResourcesToCache stableSort (fun k => if k = 2 then 8 else 1)
              builtinCatalog)) :=
  ⟨by decide, by decide, by decide,
    C11_all_candidates_committed_when_all_fit stableSort loadResource
      (fun k => if k = 2 then 8 else 1) getCurrentMemoryUsage getMaxMemoryLimit
      builtinCatalog (by decide) (by decide)⟩

theorem first_misfit_commits_nothing (L : Loader) (baseline maxLimit : Nat)
    (resource : Resource) (rest : List Resource)
    (hno : baseline + resource.size < SIZE_MOD)
    (hmis : maxLimit < baseline + resource.size) :
    updateCache L baseline maxLimit (resource :: rest)
      = { currentMemoryUsage := baseline, committed := [], usageLog := [], out := [] } := by
  have h : ¬ canCacheResource maxLimit baseline resource = true := by
    simp only [canCacheResource, Nat.mod_eq_of_lt hno, decide_eq_true_eq]
    omega
  simp [updateCache, updateCacheLoop, h]

/-- C12 (failing input): baseline 99 MB, limit 100 MB, first candidate of
`2 ^ 64 - 99 MB` bytes.  The baseline plus its size is `2 ^ 64`, above the limit, but
the `size_t` sum wraps to 0: the candidate is passed to `cacheResource` and the
running usage leaves the baseline. -/
theorem C12_wrapped_first_candidate_is_committed :
    getMaxMemoryLimit < 99 * 1024 * 1024 + (2 ^ 64 - 99 * 1024 * 1024)
    ∧ (updateCache loadResource (99 * 1024 * 1024) getMaxMemoryLimit
        [⟨"Texture1", 2 ^ 64 - 99 * 1024 * 1024⟩]).committed
        = [⟨"Texture1", 2 ^ 64 - 99 * 1024 * 1024⟩]
    ∧ (updateCache loadResource (99 * 1024 * 1024) getMaxMemoryLimit
        [⟨"Texture1", 2 ^ 64 - 99 * 1024 * 1024⟩]).currentMemoryUsage = 0
    ∧ (updateCache loadResource (99 * 1024 * 1024) getMaxMemoryLimit
        [⟨"Texture1", 2 ^ 64 - 99 * 1024 * 1024⟩]).out
        = ["Loading resource: Texture1", "Resource loaded: Texture1",
            "Updating cache table for: Texture1", "Resource added to cache: Texture1"] := by
  decide

/-- C13: `updateCache` on an empty list ends in its initial state: nothing passed to
`cacheResource`, no line of output, usage equal to the baseline.  So does a pass
over any catalog for which `getResourcesToCache` returns the empty list, and
`getResourcesToCache` returns the empty list for the empty catalog. -/
theorem C13_empty_list_is_noop (S : StdSort) (L : Loader) (draws : Nat → Nat)
    (baseline maxLimit : Nat) :
    updateCache L baseline maxLimit []
        = { currentMemoryUsage := baseline, committed := [], usageLog := [], out := [] }
    ∧ (∀ catalog, getResourcesToCache S draws catalog = [] →
        runPass S L draws baseline maxLimit catalog
          = { currentMemoryUsage := baseline, committed := [], usageLog := [], out := [] })
    ∧ getResourcesToCache S draws [] = []
    ∧ runPass S L draws baseline maxLimit []
        = { currentMemoryUsage := baseline, committed := [], usageLog := [], out := [] } := by
  have hsort : S.sort [] = [] := List.Perm.eq_nil (S.perm [])
  have hempty : getResourcesToCache S draws [] = [] := by
    simp [getResourcesToCache, hsort, filterLoop]
  refine ⟨rfl, ?_, hempty, ?_⟩
  · intro catalog h
    simp [runPass, h, updateCache, updateCacheLoop]
  · simp [runPass, hempty, updateCache, updateCacheLoop]

/-- C13 (witness): a catalog of one resource that is neither texture nor audio gives
an empty list, and the pass over it at the baseline and limit of the source is a
no-op. -/
theorem C13_empty_list_is_noop_witness :
    getResourcesToCache stableSort (fun _ => 1) [⟨"Model1", 4096⟩] = []
    ∧ runPass stableSort loadResource (fun _ => 1) getCurrentMemoryUsage getMaxMemoryLimit
        [⟨"Model1", 4096⟩]
      = { currentMemoryUsage := getCurrentMemoryUsage, committed := [], usageLog := [],
          out := [] } :=
  ⟨by decide,
    (C13_empty_list_is_noop stableSort loadResource (fun _ => 1) getCurrentMemoryUsage
      getMaxMemoryLimit).2.1 [⟨"Model1", 4096⟩] (by decide)⟩

/-! ## Sort then filter against filter then sort: claim C14 -/

theorem kept_eq_filter (draws : Nat → Nat) (pred : Resource → Bool) (l : List Resource)
    (i : Nat) (hdet : ∀ k r, l[k]? = some r → isFrequentlyUsed r (draws (i + k)) = pred r) :
    kept draws i l = l.filter pred := by
  induction l generalizing i with
  | nil => simp [kept]
  | cons a rs ih =>
    have ha : isFrequentlyUsed a (draws i) = pred a := by
      simpa using hdet 0 a (by simp)
    have hrs : kept draws (i + 1) rs = rs.filter pred := by
      apply ih
      intro k r hk
      have := hdet (k + 1) r (by simpa using hk)
      rw [← this]
      congr 2
      omega
    by_cases hp : pred a = true
    · simp [kept, ha, hp, hrs]
    · simp [kept, ha, hp, hrs]

theorem sorted_eq_of_filter_size_eq (l₁ l₂ : List Resource)
    (h₁ : l₁.Pairwise (fun a b => a.size ≤ b.size))
    (h₂ : l₂.Pairwise (fun a b => a.size ≤ b.size))
    (hf : ∀ s : Nat, l₁.filter (fun r => decide (r.size = s))
      = l₂.filter (fun r => decide (r.size = s))) :
    l₁ = l₂ := by
  induction l₁ generalizing l₂ with
  | nil =>
    cases l₂ with
    | nil => rfl
    | cons b bs =>
      have := hf b.size
      simp at this
  | cons a as ih =>
    cases l₂ with
    | nil =>
      have := hf a.size
      simp at this
    | cons b bs =>
      have hab : a.size ≤ b.size := by
        have hb : b ∈ (a :: as).filter (fun r => decide (r.size = b.size)) := by
          rw [hf b.size]; simp
        have hb' := (List.mem_filter.mp hb).1
        rcases List.mem_cons.mp hb' with hb' | hb'
        · rw [hb']
        · exact (List.pairwise_cons.mp h₁).1 b hb'
      have hba : b.size ≤ a.size := by
        have ha : a ∈ (b :: bs).filter (fun r => decide (r.size = a.size)) := by
          rw [← hf a.size]; simp
        have ha' := (List.mem_filter.mp ha).1
        rcases List.mem_cons.mp ha' with ha' | ha'
        · rw [ha']
        · exact (List.pairwise_cons.mp h₂).1 a ha'
      have hsz : b.size = a.size := Nat.le_antisymm hba hab
      have hhead := hf a.size
      simp only [List.filter_cons, hsz, decide_True, if_true] at hhead
      have heq : a = b := (List.cons.inj hhead).1
      subst heq
      congr 1
      apply ih bs (List.pairwise_cons.mp h₁).2 (List.pairwise_cons.mp h₂).2
      intro s
      have := hf s
      by_cases hs : a.size = s
      · simpa [List.filter_cons, hs] using this
      · simpa [List.filter_cons, hs] using this

theorem insertionSortBySize_pairwise (l : List Resource) :
    (insertionSortBySize l).Pairwise (fun a b => a.size ≤ b.size) :=
  List.sorted_insertionSort (fun a b : Resource => a.size ≤ b.size) l

theorem sort_eq_insertionSort_of_ties (S : StdSort) (catalog : List Resource)
    (hstable : tiesInCatalogOrder catalog (S.sort catalog)) :
    S.sort catalog = insertionSortBySize catalog := by
  apply sorted_eq_of_filter_size_eq
  · exact (S.sorted catalog).imp (fun h => Nat.not_lt.mp h)
  · exact insertionSortBySize_pairwise catalog
  · intro s
    rw [insertionSortBySize_filter_size]
    exact (hstable s).eq_of_length (((S.perm catalog).filter _).length_eq)

theorem filter_insertionSortBySize (pred : Resource → Bool) (l : List Resource) :
    (insertionSortBySize l).filter pred = insertionSortBySize (l.filter pred) := by
  apply sorted_eq_of_filter_size_eq
  · exact (insertionSortBySize_pairwise l).sublist (List.filter_sublist _)
  · exact insertionSortBySize_pairwise _
  · intro s
    rw [insertionSortBySize_filter_size, List.filter_filter, List.filter_filter]
    have h := insertionSortBySize_filter_size s l
    calc (insertionSortBySize l).filter (fun a => decide (a.size = s) && pred a)
        = ((insertionSortBySize l).filter (fun r => decide (r.size = s))).filter pred := by
          rw [List.filter_filter]; congr 1; funext a; exact Bool.and_comm _ _
      _ = (l.filter (fun r => decide (r.size = s))).filter pred := by rw [h]
      _ = l.filter (fun a => decide (a.size = s) && pred a) := by
          rw [List.filter_filter]; congr 1; funext a; exact Bool.and_comm _ _

/-- When the predictor acts as a pure function `pred` of the resource in every call of
the pass, and the `std::sort` in use leaves the resources of equal size of the catalog
in catalog order, sorting the whole catalog and then filtering gives the list
obtained by filtering first and then sorting with ties in catalog order. -/
theorem sort_then_filter_eq_specPlan_of_stable_sort (S : StdSort)
    (draws : Nat → Nat) (pred : Resource → Bool) (catalog : List Resource)
    (hdet : ∀ k r, (S.sort catalog)[k]? = some r → isFrequentlyUsed r (draws k) = pred r)
    (hstable : tiesInCatalogOrder catalog (S.sort catalog)) :
    getResourcesToCache S draws catalog = specPlan pred catalog := by
  rw [getResourcesToCache_eq,
    kept_eq_filter draws pred (S.sort catalog) 0 (by simpa using hdet),
    sort_eq_insertionSort_of_ties S catalog hstable, filter_insertionSortBySize]
  rfl

/-- C14 (counterexample): seventeen textures of 1 MB, all frequently used.  Filtering
first and sorting with ties in catalog order gives the catalog itself; the list
`getResourcesToCache` computes with the `std::sort` of libstdc++ starts with
Texture09, Texture17, Texture16. -/
theorem C14_counterexample :
    specPlan (fun r => isFrequentlyUsed r 1) seventeenTextures = seventeenTextures
    ∧ (getResourcesToCache (libstdcxxSort stableSort) (fun _ => 1) seventeenTextures).map
        Resource.name
      = ["Texture09", "Texture17", "Texture16", "Texture15", "Texture14", "Texture13",
          "Texture12", "Texture11", "Texture10", "Texture01", "Texture08", "Texture07",
          "Texture06", "Texture05", "Texture04", "Texture03", "Texture02"]
    ∧ getResourcesToCache (libstdcxxSort stableSort) (fun _ => 1) seventeenTextures
        ≠ specPlan (fun r => isFrequentlyUsed r 1) seventeenTextures := by
  decide

/-- C14 (amended): with the `std::sort` of libstdc++, for every catalog of at most 16
resources and every predictor that acts as a pure function `pred` of the resource in
every call of the pass, the list `getResourcesToCache` computes by sorting the whole
catalog and then filtering equals the list obtained by filtering the catalog first
and then sorting it by size with ties in catalog order. -/
theorem C14_sort_then_filter_matches_spec_up_to_sixteen (H : StdSort)
    (draws : Nat → Nat) (pred : Resource → Bool) (catalog : List Resource)
    (hdet : ∀ k r, ((libstdcxxSort H).sort catalog)[k]? = some r →
      isFrequentlyUsed r (draws k) = pred r)
    (hlen : catalog.length ≤ 16) :
    getResourcesToCache (libstdcxxSort H) draws catalog = specPlan pred catalog :=
  sort_then_filter_eq_specPlan_of_stable_sort (libstdcxxSort H) draws pred catalog hdet
    (libstdcxxSort_tiesInCatalogOrder H catalog hlen)

/-- C14 (witness): built-in catalog, every resource frequently used (draw 1 in every
call): both orders of filtering and sorting give Audio1, Texture1, Audio2, Texture2,
with the tie between Texture1 and Audio2 in catalog order. -/
theorem C14_sort_then_filter_matches_spec_up_to_sixteen_witness :
    builtinCatalog.length ≤ 16
    ∧ (specPlan (fun r => isFrequentlyUsed r 1) builtinCatalog).map Resource.name
        = ["Audio1", "Texture1", "Audio2", "Texture2"]
    ∧ getResourcesToCache (libstdcxxSort stableSort) (fun _ => 1) builtinCatalog
        = specPlan (fun r => isFrequentlyUsed r 1) builtinCatalog :=
  ⟨by decide, by decide,
    C14_sort_then_filter_matches_spec_up_to_sixteen stableSort (fun _ => 1)
      (fun r => isFrequentlyUsed r 1) builtinCatalog (fun _ _ _ => rfl) (by decide)⟩

/-! ## Stopping against skipping: claim C15 -/

theorem skippingWalk_nil_of_none_fit (maxLimit cur : Nat) (l : List Resource)
    (hnone : ∀ r ∈ l, canCacheResource maxLimit cur r = false) :
    skippingWalk maxLimit cur l = [] := by
  induction l with
  | nil => simp [skippingWalk]
  | cons a rs ih =>
    have ha := hnone a (by simp)
    simp only [skippingWalk, ha]
    exact ih (fun r hr => hnone r (by simp [hr]))

theorem size_le_totalSize_of_mem (l : List Resource) (r : Resource) (hr : r ∈ l) :
    r.size ≤ totalSize l := by
  induction l with
  | nil => simp at hr
  | cons a rs ih =>
    rw [totalSize_cons]
    rcases List.mem_cons.mp hr with h | h
    · rw [h]; omega
    · have := ih h
      omega

theorem admitted_eq_skippingWalk (maxLimit : Nat) (l : List Resource) (cur : Nat)
    (hsorted : l.Pairwise (fun a b => a.size ≤ b.size))
    (hno : cur + totalSize l < SIZE_MOD) :
    admitted maxLimit cur l = skippingWalk maxLimit cur l := by
  induction l generalizing cur with
  | nil => simp [admitted, skippingWalk]
  | cons a rs ih =>
    rw [totalSize_cons] at hno
    have hmod : (cur + a.size) % SIZE_MOD = cur + a.size := Nat.mod_eq_of_lt (by omega)
    by_cases h : canCacheResource maxLimit cur a = true
    · simp only [admitted, skippingWalk, h, if_true, hmod]
      rw [ih (cur + a.size) (List.pairwise_cons.mp hsorted).2 (by omega)]
    · have hgt : maxLimit < cur + a.size := by
        simpa [canCacheResource, hmod] using h
      simp only [admitted, skippingWalk, h]
      symm
      apply skippingWalk_nil_of_none_fit
      intro r hr
      have hle : a.size ≤ r.size := (List.pairwise_cons.mp hsorted).1 r hr
      have hrt := size_le_totalSize_of_mem rs r hr
      have hmodr : (cur + r.size) % SIZE_MOD = cur + r.size := Nat.mod_eq_of_lt (by omega)
      simp only [canCacheResource, hmodr, decide_eq_false_iff_not]
      omega

/-- C15: for a candidate list in non-decreasing order of size whose sizes, added to
the baseline, stay below `2 ^ 64`, the walk of `updateCache`, which stops at the first
candidate that does not fit, commits the same resources in the same order as a walk
that skips such a candidate and goes on; and for a list that is not sorted (2 MB
before 512 KB, baseline 99 MB, limit 100 MB) the two walks differ. -/
theorem C15_stop_walk_equals_skipping_walk_on_sorted_lists :
    (∀ (L : Loader) (baseline maxLimit : Nat) (resources : List Resource),
      resources.Pairwise (fun a b => a.size ≤ b.size) →
      baseline + totalSize resources < SIZE_MOD →
      (updateCache L baseline maxLimit resources).committed
        = skippingWalk maxLimit baseline resources)
    ∧ (¬ [(⟨"Texture2", 2048 * 1024⟩ : Resource), ⟨"Audio1", 512 * 1024⟩].Pairwise
          (fun a b => a.size ≤ b.size)
      ∧ 99 * 1024 * 1024
          + totalSize [⟨"Texture2", 2048 * 1024⟩, ⟨"Audio1", 512 * 1024⟩] < SIZE_MOD
      ∧ (updateCache loadResource (99 * 1024 * 1024) getMaxMemoryLimit
          [⟨"Texture2", 2048 * 1024⟩, ⟨"Audio1", 512 * 1024⟩]).committed = []
      ∧ skippingWalk getMaxMemoryLimit (99 * 1024 * 1024)
          [⟨"Texture2", 2048 * 1024⟩, ⟨"Audio1", 512 * 1024⟩]
          = [⟨"Audio1", 512 * 1024⟩]) := by
  refine ⟨?_, by decide⟩
  intro L baseline maxLimit resources hsorted hno
  rw [updateCache_committed]
  exact admitted_eq_skippingWalk maxLimit resources baseline hsorted hno

/-- C15 (witness): on the sorted list Audio1 (512 KB), Texture1 (1 MB), Texture2
(2 MB) with baseline 98.5 MB and limit 100 MB both walks commit Audio1 and Texture1
and leave Texture2 out. -/
theorem C15_stop_walk_equals_skipping_walk_on_sorted_lists_witness :
    [(⟨"Audio1", 512 * 1024⟩ : Resource), ⟨"Texture1", 1024 * 1024⟩,
        ⟨"Texture2", 2048 * 1024⟩].Pairwise (fun a b => a.size ≤ b.size)
    ∧ skippingWalk getMaxMemoryLimit (197 * 512 * 1024)
        [⟨"Audio1", 512 * 1024⟩, ⟨"Texture1", 1024 * 1024⟩, ⟨"Texture2", 2048 * 1024⟩]
        = [⟨"Audio1", 512 * 1024⟩, ⟨"Texture1", 1024 * 1024⟩]
    ∧ (updateCache loadResource (197 * 512 * 1024) getMaxMemoryLimit
        [⟨"Audio1", 512 * 1024⟩, ⟨"Texture1", 1024 * 1024⟩,
          ⟨"Texture2", 2048 * 1024⟩]).committed
        = skippingWalk getMaxMemoryLimit (197 * 512 * 1024)
            [⟨"Audio1", 512 * 1024⟩, ⟨"Texture1", 1024 * 1024⟩, ⟨"Texture2", 2048 * 1024⟩] :=
  ⟨by decide, by decide,
    C15_stop_walk_equals_skipping_walk_on_sorted_lists.1 loadResource (197 * 512 * 1024)
      getMaxMemoryLimit
      [⟨"Audio1", 512 * 1024⟩, ⟨"Texture1", 1024 * 1024⟩, ⟨"Texture2", 2048 * 1024⟩]
      (by decide) (by decide)⟩

/-! ## The audio branch of the predictor: claim C16 -/

/-- C16: for a resource whose name contains "Audio" and not "Texture",
`isFrequentlyUsed` is true exactly when the draw is at most 7; the draw takes the ten
values 1 to 10, seven of which give true; and two such resources get the same answer
for the same draw, whatever their names and sizes. -/
theorem C16_audio_frequently_used_iff_draw_at_most_seven (resource : Resource)
    (haudio : nameContains resource.name "Audio" = true)
    (htexture : nameContains resource.name "Texture" = false) :
    (∀ draw, isFrequentlyUsed resource draw = true ↔ draw ≤ 7)
    ∧ (∀ d, d ∈ drawRange ↔ 1 ≤ d ∧ d ≤ 10)
    ∧ drawRange.length = 10
    ∧ (drawRange.filter (fun d => isFrequentlyUsed resource d)).length = 7
    ∧ (∀ other : Resource, nameContains other.name "Audio" = true →
        nameContains other.name "Texture" = false →
        ∀ draw, isFrequentlyUsed other draw = isFrequentlyUsed resource draw) := by
  have hfun : ∀ draw, isFrequentlyUsed resource draw = decide (draw ≤ 7) := by
    intro draw
    simp [isFrequentlyUsed, haudio, htexture]
  refine ⟨?_, ?_, rfl, ?_, ?_⟩
  · intro draw
    simp [hfun]
  · intro d
    simp only [drawRange, List.mem_cons, List.mem_singleton, List.not_mem_nil, or_false]
    omega
  · have : (fun d => isFrequentlyUsed resource d) = fun d => decide (d ≤ 7) := funext hfun
    rw [this]
    decide
  · intro other ha ht draw
    simp [isFrequentlyUsed, haudio, htexture, ha, ht]

/-- C16 (witness): Audio1 of the built-in catalog. -/
theorem C16_audio_frequently_used_iff_draw_at_most_seven_witness :
    nameContains "Audio1" "Audio" = true
    ∧ nameContains "Audio1" "Texture" = false
    ∧ isFrequentlyUsed ⟨"Audio1", 512 * 1024⟩ 7 = true
    ∧ isFrequentlyUsed ⟨"Audio1", 512 * 1024⟩ 8 = false
    ∧ (drawRange.filter (fun d => isFrequentlyUsed ⟨"Audio1", 512 * 1024⟩ d)).length = 7 :=
  ⟨by decide, by decide, by decide, by decide,
    (C16_audio_frequently_used_iff_draw_at_most_seven ⟨"Audio1", 512 * 1024⟩
      (by decide) (by decide)).2.2.2.1⟩

/-! ## Smallest first admits the most: claim C17 -/

theorem totalSize_perm (l₁ l₂ : List Resource) (h : l₁.Perm l₂) :
    totalSize l₁ = totalSize l₂ :=
  (h.map Resource.size).sum_eq

theorem totalSize_take_mono (l : List Resource) (j k : Nat) (hjk : j ≤ k) :
    totalSize (l.take j) ≤ totalSize (l.take k) := by
  induction l generalizing j k with
  | nil => simp
  | cons a rs ih =>
    cases j with
    | zero => simp
    | succ j =>
      cases k with
      | zero => omega
      | succ k =>
        simp only [List.take_succ_cons, totalSize_cons]
        have := ih j k (by omega)
        omega

theorem totalSize_take_cons_le (a : Resource) (l : List Resource) (k : Nat)
    (hsorted : (a :: l).Pairwise (fun x y => x.size ≤ y.size)) (hk : k ≤ l.length) :
    totalSize ((a :: l).take k) ≤ totalSize (l.take k) := by
  induction l generalizing a k with
  | nil =>
    have : k = 0 := by simpa using hk
    subst this
    simp
  | cons b rs ih =>
    cases k with
    | zero => simp
    | succ k =>
      have hab : a.size ≤ b.size := (List.pairwise_cons.mp hsorted).1 b (by simp)
      have := ih b k (List.pairwise_cons.mp hsorted).2 (by simpa using hk)
      simp only [List.take_succ_cons, totalSize_cons] at this ⊢
      omega

theorem totalSize_take_le_of_sublist (sub l : List Resource) (hsub : sub.Sublist l)
    (hsorted : l.Pairwise (fun x y => x.size ≤ y.size)) :
    totalSize (l.take sub.length) ≤ totalSize sub := by
  induction hsub with
  | slnil => simp
  | cons a h ih =>
    have h1 := ih (List.pairwise_cons.mp hsorted).2
    have h2 := totalSize_take_cons_le a _ _ hsorted h.length_le
    omega
  | cons₂ a h ih =>
    have h1 := ih (List.pairwise_cons.mp hsorted).2
    simp only [List.length_cons, List.take_succ_cons, totalSize_cons]
    omega

theorem specAdmitted_length_max (maxBudget usage : Nat) (l sub : List Resource)
    (hsorted : l.Pairwise (fun x y => x.size ≤ y.size)) (hsub : sub.Subperm l)
    (hfit : usage + totalSize sub ≤ maxBudget) :
    sub.length ≤ (specAdmitted maxBudget usage l).length := by
  obtain ⟨sub', hperm, hsl⟩ := hsub
  have hlen : sub'.length = sub.length := hperm.length_eq
  have htot : totalSize sub' = totalSize sub := totalSize_perm _ _ hperm
  by_contra hcon
  have hlt : (specAdmitted maxBudget usage l).length < sub'.length := by omega
  have hlt' : (specAdmitted maxBudget usage l).length < l.length :=
    Nat.lt_of_lt_of_le hlt hsl.length_le
  have hmis := specAdmitted_stops_at_misfit maxBudget l usage hlt'
  have h1 := totalSize_take_mono l ((specAdmitted maxBudget usage l).length + 1)
    sub'.length (by omega)
  have h2 := totalSize_take_le_of_sublist sub' l hsl hsorted
  omega

/-- C17: with a predictor that acts as a pure function `pred` of the resource, and
the baseline plus the sizes of all frequently-used catalog resources below `2 ^ 64`,
the number of resources `updateCache` commits is at least the number of elements of
any sub-collection of the frequently-used catalog resources whose total size plus the
baseline is at most the limit. -/
theorem C17_smallest_first_commits_most (S : StdSort) (L : Loader) (draws : Nat → Nat)
    (pred : Resource → Bool) (baseline maxLimit : Nat) (catalog sub : List Resource)
    (hdet : ∀ k r, (S.sort catalog)[k]? = some r → isFrequentlyUsed r (draws k) = pred r)
    (hno : baseline + totalSize (catalog.filter pred) < SIZE_MOD)
    (hsub : sub.Subperm (catalog.filter pred))
    (hfit : baseline + totalSize sub ≤ maxLimit) :
    sub.length ≤ (runPass S L draws baseline maxLimit catalog).committed.length := by
  have hres : getResourcesToCache S draws catalog = (S.sort catalog).filter pred := by
    rw [getResourcesToCache_eq]
    exact kept_eq_filter draws pred (S.sort catalog) 0 (by simpa using hdet)
  have hperm : ((S.sort catalog).filter pred).Perm (catalog.filter pred) :=
    (S.perm catalog).filter _
  have hsorted : ((S.sort catalog).filter pred).Pairwise (fun x y => x.size ≤ y.size) := by
    rw [← hres]
    exact getResourcesToCache_pairwise S draws catalog
  unfold runPass
  rw [updateCache_committed, hres,
    admitted_eq_specAdmitted maxLimit _ baseline (by rw [totalSize_perm _ _ hperm]; exact hno)]
  exact specAdmitted_length_max maxLimit baseline _ sub hsorted
    (hsub.trans hperm.symm.subperm) hfit

/-- C17 (witness): built-in catalog, every resource frequently used, baseline 97 MB,
limit 100 MB.  Texture2 and Audio2 together (3 MB) fit the headroom; the pass commits
Audio1, Texture1 and Audio2, which is three resources against two. -/
theorem C17_smallest_first_commits_most_witness :
    [(⟨"Texture2", 2048 * 1024⟩ : Resource), ⟨"Audio2", 1024 * 1024⟩].Subperm
        (builtinCatalog.filter (fun r => isFrequentlyUsed r 1))
    ∧ 97 * 1024 * 1024 + totalSize [⟨"Texture2", 2048 * 1024⟩, ⟨"Audio2", 1024 * 1024⟩]
        ≤ getMaxMemoryLimit
    ∧ (runPass stableSort loadResource (fun _ => 1) (97 * 1024 * 1024) getMaxMemoryLimit
        builtinCatalog).committed.length = 3
    ∧ [(⟨"Texture2", 2048 * 1024⟩ : Resource), ⟨"Audio2", 1024 * 1024⟩].length
        ≤ (runPass stableSort loadResource (fun _ => 1) (97 * 1024 * 1024) getMaxMemoryLimit
            builtinCatalog).committed.length :=
  ⟨by decide, by decide, by decide,
    C17_smallest_first_commits_most stableSort loadResource (fun _ => 1)
      (fun r => isFrequentlyUsed r 1) (97 * 1024 * 1024) getMaxMemoryLimit builtinCatalog
      [⟨"Texture2", 2048 * 1024⟩, ⟨"Audio2", 1024 * 1024⟩] (fun _ _ _ => rfl) (by decide)
      (by decide) (by decide)⟩

/-! ## Wrap-around in `canCacheResource`: claim C18 -/

/-- C18: `canCacheResource` compares the sum reduced modulo `2 ^ 64` with the limit.
When the exact sum is below `2 ^ 64` it answers true exactly when that sum is at most
the limit.  At usage 11 MB, a size of `2 ^ 64 - 1 MB` and the limit 100 MB the exact
sum is at least `2 ^ 64`, the wrapped sum is 10 MB, the answer is true, and
`updateCache` from the baseline 10 MB commits Texture1 (1 MB) and then that resource,
whose size added to the usage is above the limit. -/
theorem C18_canCacheResource_wraps_modulo_size_t :
    (∀ (maxLimit currentMemoryUsage : Nat) (resource : Resource),
      canCacheResource maxLimit currentMemoryUsage resource
        = decide ((currentMemoryUsage + resource.size) % 2 ^ 64 ≤ maxLimit))
    ∧ (∀ (maxLimit currentMemoryUsage : Nat) (resource : Resource),
      currentMemoryUsage + resource.size < 2 ^ 64 →
      (canCacheResource maxLimit currentMemoryUsage resource = true
        ↔ currentMemoryUsage + resource.size ≤ maxLimit))
    ∧ (2 ^ 64 ≤ 11 * 1024 * 1024 + (2 ^ 64 - 1024 * 1024)
      ∧ (11 * 1024 * 1024 + (2 ^ 64 - 1024 * 1024)) % 2 ^ 64 = 10 * 1024 * 1024
      ∧ canCacheResource getMaxMemoryLimit (11 * 1024 * 1024)
          ⟨"Texture2", 2 ^ 64 - 1024 * 1024⟩ = true
      ∧ (updateCache loadResource getCurrentMemoryUsage getMaxMemoryLimit
          [⟨"Texture1", 1024 * 1024⟩, ⟨"Texture2", 2 ^ 64 - 1024 * 1024⟩]).committed
          = [⟨"Texture1", 1024 * 1024⟩, ⟨"Texture2", 2 ^ 64 - 1024 * 1024⟩]
      ∧ (updateCache loadResource getCurrentMemoryUsage getMaxMemoryLimit
          [⟨"Texture1", 1024 * 1024⟩, ⟨"Texture2", 2 ^ 64 - 1024 * 1024⟩]).usageLog
          = [11 * 1024 * 1024, 10 * 1024 * 1024]
      ∧ getMaxMemoryLimit < getCurrentMemoryUsage
          + totalSize [⟨"Texture1", 1024 * 1024⟩, ⟨"Texture2", 2 ^ 64 - 1024 * 1024⟩]) := by
  refine ⟨fun _ _ _ => rfl, ?_, by decide⟩
  intro maxLimit currentMemoryUsage resource hlt
  have hmod : (currentMemoryUsage + resource.size) % SIZE_MOD
      = currentMemoryUsage + resource.size := Nat.mod_eq_of_lt hlt
  simp [canCacheResource, hmod]

/-- C18 (witness): at usage 99 MB and limit 100 MB, 512 KB passes the test and 2 MB
does not; neither sum wraps. -/
theorem C18_canCacheResource_wraps_modulo_size_t_witness :
    99 * 1024 * 1024 + 512 * 1024 < 2 ^ 64
    ∧ (canCacheResource getMaxMemoryLimit (99 * 1024 * 1024) ⟨"Audio1", 512 * 1024⟩ = true
      ↔ 99 * 1024 * 1024 + 512 * 1024 ≤ getMaxMemoryLimit)
    ∧ (canCacheResource getMaxMemoryLimit (99 * 1024 * 1024) ⟨"Texture2", 2048 * 1024⟩ = true
      ↔ 99 * 1024 * 1024 + 2048 * 1024 ≤ getMaxMemoryLimit) :=
  ⟨by decide,
    C18_canCacheResource_wraps_modulo_size_t.2.1 getMaxMemoryLimit (99 * 1024 * 1024)
      ⟨"Audio1", 512 * 1024⟩ (by decide),
    C18_canCacheResource_wraps_modulo_size_t.2.1 getMaxMemoryLimit (99 * 1024 * 1024)
      ⟨"Texture2", 2048 * 1024⟩ (by decide)⟩

end AdaptiveCachingSystem
